import Mathlib

/-!
Verification development for the IrisVault biometric engine
(`backend/biometric_engine.py`).

The engine's own control flow and arithmetic are translated directly from the
Python source.  Calls into third-party libraries (OpenCV, scikit-image,
pycryptodome's AES block primitive, NumPy image decoding) are modelled as
parameters of the embedding; every property of such a parameter that a theorem
relies on appears as an explicit hypothesis stating the library's documented
contract.  Machine floats are modelled as real numbers (`ℝ`); the byte-exact
parts of the pipeline (serialization, base64, CBC, PKCS#7 padding) are
modelled over `ℕ` and are fully executable.
-/

namespace IrisVault

/-! ### Base64 (`base64.b64encode` / `base64.b64decode`)

`encrypt_template` base64-encodes `iv + ciphertext`; `decrypt_template`
base64-decodes its input.  Python's `b64decode` (non-validating mode, as
called by the source) first discards characters outside the base64 alphabet
and `'='`, then decodes in groups of four sextets, failing on a leftover
group; the model below reproduces that. -/

/-- The standard base64 alphabet, in index order. -/
def b64Alphabet : List Char :=
  ['A', 'B', 'C', 'D', 'E', 'F', 'G', 'H', 'I', 'J', 'K', 'L', 'M',
   'N', 'O', 'P', 'Q', 'R', 'S', 'T', 'U', 'V', 'W', 'X', 'Y', 'Z',
   'a', 'b', 'c', 'd', 'e', 'f', 'g', 'h', 'i', 'j', 'k', 'l', 'm',
   'n', 'o', 'p', 'q', 'r', 's', 't', 'u', 'v', 'w', 'x', 'y', 'z',
   '0', '1', '2', '3', '4', '5', '6', '7', '8', '9', '+', '/']

/-- Character of a sextet value (0–63). -/
def encSextet (n : ℕ) : Char := b64Alphabet.getD n 'A'

/-- Sextet value of a character; `none` for characters outside the alphabet. -/
def decSextet (c : Char) : Option ℕ := b64Alphabet.indexOf? c

/-- Whether a character belongs to the base64 alphabet. -/
def isB64Char (c : Char) : Bool := (decSextet c).isSome

/-- Base64-encode a byte list, three bytes to four characters, with `'='`
padding on a final group of one or two bytes. -/
def encB : List ℕ → List Char
  | [] => []
  | [b1] => [encSextet (b1 / 4), encSextet (b1 % 4 * 16), '=', '=']
  | [b1, b2] =>
      [encSextet (b1 / 4), encSextet (b1 % 4 * 16 + b2 / 16),
       encSextet (b2 % 16 * 4), '=']
  | b1 :: b2 :: b3 :: rest =>
      encSextet (b1 / 4) :: encSextet (b1 % 4 * 16 + b2 / 16) ::
      encSextet (b2 % 16 * 4 + b3 / 64) :: encSextet (b3 % 64) :: encB rest

/-- Decode a full quad of alphabet characters into three bytes. -/
def decQuad4 (c1 c2 c3 c4 : Char) : Option (List ℕ) :=
  match decSextet c1, decSextet c2, decSextet c3, decSextet c4 with
  | some s1, some s2, some s3, some s4 =>
      some [s1 * 4 + s2 / 16, s2 % 16 * 16 + s3 / 4, s3 % 4 * 64 + s4]
  | _, _, _, _ => none

/-- Decode the final quad, which may carry one or two `'='` padding chars. -/
def decFinal (c1 c2 c3 c4 : Char) : Option (List ℕ) :=
  if c3 = '=' ∧ c4 = '=' then
    match decSextet c1, decSextet c2 with
    | some s1, some s2 => some [s1 * 4 + s2 / 16]
    | _, _ => none
  else if c4 = '=' then
    match decSextet c1, decSextet c2, decSextet c3 with
    | some s1, some s2, some s3 =>
        some [s1 * 4 + s2 / 16, s2 % 16 * 16 + s3 / 4]
    | _, _, _ => none
  else decQuad4 c1 c2 c3 c4

/-- Decode a character stream four at a time; a leftover group of 1–3
characters is a decode error (Python raises `binascii.Error`). -/
def decQuads : List Char → Option (List ℕ)
  | [] => some []
  | [c1, c2, c3, c4] => decFinal c1 c2 c3 c4
  | c1 :: c2 :: c3 :: c4 :: rest => do
      let b ← decQuad4 c1 c2 c3 c4
      let r ← decQuads rest
      some (b ++ r)
  | _ => none

/-- `base64.b64encode(bytes).decode()` as called by `encrypt_template`. -/
def b64encode (bs : List ℕ) : String := String.mk (encB bs)

/-- `base64.b64decode(s)` as called by `decrypt_template`: discard characters
outside the alphabet and `'='`, then decode quads; `none` models the
`binascii.Error` exception. -/
def b64decode (s : String) : Option (List ℕ) :=
  decQuads (s.data.filter fun c => isB64Char c || c == '=')

theorem decQuads_nil : decQuads [] = some [] := rfl

theorem decQuads_four (c1 c2 c3 c4 : Char) :
    decQuads [c1, c2, c3, c4] = decFinal c1 c2 c3 c4 := rfl

theorem decQuads_cons5 (c1 c2 c3 c4 ch : Char) (ct : List Char) :
    decQuads (c1 :: c2 :: c3 :: c4 :: ch :: ct) =
      (decQuad4 c1 c2 c3 c4).bind
        (fun b => (decQuads (ch :: ct)).bind (fun r => some (b ++ r))) := rfl

theorem decSextet_encSextet' : ∀ n < 64, decSextet (encSextet n) = some n := by
  decide

theorem decSextet_encSextet {n : ℕ} (h : n < 64) : decSextet (encSextet n) = some n :=
  decSextet_encSextet' n h

theorem encSextet_isB64 {n : ℕ} (h : n < 64) : isB64Char (encSextet n) = true := by
  simp [isB64Char, decSextet_encSextet h]

theorem encSextet_ne_eq' : ∀ n < 64, encSextet n ≠ '=' := by
  decide

theorem encSextet_ne_eq {n : ℕ} (h : n < 64) : encSextet n ≠ '=' :=
  encSextet_ne_eq' n h

theorem encB_chars : ∀ bs : List ℕ, (∀ b ∈ bs, b < 256) →
    ∀ c ∈ encB bs, isB64Char c = true ∨ c = '=' := by
  intro bs
  induction bs using encB.induct with
  | case1 => simp [encB]
  | case2 b1 =>
      intro hb
      have h1 : b1 < 256 := hb b1 (by simp)
      simp only [encB, List.mem_cons, List.not_mem_nil, or_false]
      rintro c (rfl | rfl | rfl | rfl)
      · exact Or.inl (encSextet_isB64 (by omega))
      · exact Or.inl (encSextet_isB64 (by omega))
      · exact Or.inr rfl
      · exact Or.inr rfl
  | case3 b1 b2 =>
      intro hb
      have h1 : b1 < 256 := hb b1 (by simp)
      have h2 : b2 < 256 := hb b2 (by simp)
      simp only [encB, List.mem_cons, List.not_mem_nil, or_false]
      rintro c (rfl | rfl | rfl | rfl)
      · exact Or.inl (encSextet_isB64 (by omega))
      · exact Or.inl (encSextet_isB64 (by omega))
      · exact Or.inl (encSextet_isB64 (by omega))
      · exact Or.inr rfl
  | case4 b1 b2 b3 rest ih =>
      intro hb
      have h1 : b1 < 256 := hb b1 (by simp)
      have h2 : b2 < 256 := hb b2 (by simp)
      have h3 : b3 < 256 := hb b3 (by simp)
      have hrest : ∀ b ∈ rest, b < 256 := fun b hbm => hb b (by simp [hbm])
      simp only [encB, List.mem_cons]
      rintro c (rfl | rfl | rfl | rfl | hc)
      · exact Or.inl (encSextet_isB64 (by omega))
      · exact Or.inl (encSextet_isB64 (by omega))
      · exact Or.inl (encSextet_isB64 (by omega))
      · exact Or.inl (encSextet_isB64 (by omega))
      · exact ih hrest c hc

theorem encB_ne_nil {b : ℕ} {bs : List ℕ} : encB (b :: bs) ≠ [] := by
  cases bs with
  | nil => simp [encB]
  | cons b2 t =>
      cases t with
      | nil => simp [encB]
      | cons b3 t2 => simp [encB]

theorem decQuads_encB : ∀ bs : List ℕ, (∀ b ∈ bs, b < 256) →
    decQuads (encB bs) = some bs := by
  intro bs
  induction bs using encB.induct with
  | case1 => intro _; rfl
  | case2 b1 =>
      intro hb
      have h1 : b1 < 256 := hb b1 (by simp)
      have e1 : b1 / 4 < 64 := by omega
      have e2 : b1 % 4 * 16 < 64 := by omega
      show decQuads [_, _, _, _] = _
      rw [decQuads_four]
      unfold decFinal
      rw [if_pos ⟨rfl, rfl⟩]
      rw [decSextet_encSextet e1, decSextet_encSextet e2]
      have r1 : b1 / 4 * 4 + b1 % 4 * 16 / 16 = b1 := by omega
      simp only [r1]
  | case3 b1 b2 =>
      intro hb
      have h1 : b1 < 256 := hb b1 (by simp)
      have h2 : b2 < 256 := hb b2 (by simp)
      have e1 : b1 / 4 < 64 := by omega
      have e2 : b1 % 4 * 16 + b2 / 16 < 64 := by omega
      have e3 : b2 % 16 * 4 < 64 := by omega
      have hne : encSextet (b2 % 16 * 4) ≠ '=' := encSextet_ne_eq e3
      show decQuads [_, _, _, _] = _
      rw [decQuads_four]
      unfold decFinal
      rw [if_neg (fun hand => hne hand.1), if_pos rfl]
      rw [decSextet_encSextet e1, decSextet_encSextet e2, decSextet_encSextet e3]
      have r1 : b1 / 4 * 4 + (b1 % 4 * 16 + b2 / 16) / 16 = b1 := by omega
      have r2 : (b1 % 4 * 16 + b2 / 16) % 16 * 16 + b2 % 16 * 4 / 4 = b2 := by omega
      simp only [r1, r2]
  | case4 b1 b2 b3 rest ih =>
      intro hb
      have h1 : b1 < 256 := hb b1 (by simp)
      have h2 : b2 < 256 := hb b2 (by simp)
      have h3 : b3 < 256 := hb b3 (by simp)
      have hrest : ∀ b ∈ rest, b < 256 := fun b hbm => hb b (by simp [hbm])
      have e1 : b1 / 4 < 64 := by omega
      have e2 : b1 % 4 * 16 + b2 / 16 < 64 := by omega
      have e3 : b2 % 16 * 4 + b3 / 64 < 64 := by omega
      have e4 : b3 % 64 < 64 := by omega
      have r1 : b1 / 4 * 4 + (b1 % 4 * 16 + b2 / 16) / 16 = b1 := by omega
      have r2 : (b1 % 4 * 16 + b2 / 16) % 16 * 16 + (b2 % 16 * 4 + b3 / 64) / 4 = b2 := by
        omega
      have r3 : (b2 % 16 * 4 + b3 / 64) % 4 * 64 + b3 % 64 = b3 := by omega
      cases rest with
      | nil =>
          show decQuads [_, _, _, _] = _
          rw [decQuads_four]
          unfold decFinal
          rw [if_neg (fun hand => encSextet_ne_eq e3 hand.1),
            if_neg (encSextet_ne_eq e4)]
          unfold decQuad4
          rw [decSextet_encSextet e1, decSextet_encSextet e2,
            decSextet_encSextet e3, decSextet_encSextet e4]
          simp only [r1, r2, r3]
      | cons rh rt =>
          obtain ⟨ch, ct, hEr⟩ : ∃ ch ct, encB (rh :: rt) = ch :: ct := by
            cases h : encB (rh :: rt) with
            | nil => exact absurd h encB_ne_nil
            | cons a t => exact ⟨a, t, rfl⟩
          rw [show encB (b1 :: b2 :: b3 :: rh :: rt) =
              encSextet (b1 / 4) :: encSextet (b1 % 4 * 16 + b2 / 16) ::
              encSextet (b2 % 16 * 4 + b3 / 64) :: encSextet (b3 % 64) ::
              encB (rh :: rt) from rfl, hEr]
          rw [decQuads_cons5]
          unfold decQuad4
          rw [decSextet_encSextet e1, decSextet_encSextet e2,
            decSextet_encSextet e3, decSextet_encSextet e4]
          rw [← hEr, ih hrest]
          simp only [r1, r2, r3, Option.bind_some]
          rfl

theorem b64_roundtrip {bs : List ℕ} (hb : ∀ b ∈ bs, b < 256) :
    b64decode (b64encode bs) = some bs := by
  have hfilter : (encB bs).filter (fun c => isB64Char c || c == '=') = encB bs := by
    apply List.filter_eq_self.mpr
    intro c hc
    rcases encB_chars bs hb c hc with h | h
    · simp [h]
    · simp [h]
  show decQuads ((String.mk (encB bs)).data.filter _) = some bs
  rw [show (String.mk (encB bs)).data = encB bs from rfl, hfilter]
  exact decQuads_encB bs hb

/-! ### AES-CBC envelope (`encrypt_template` / `decrypt_template`)

The AES-256 block permutation itself is a pycryptodome primitive; it is
modelled as an abstract pair of byte-block maps (`BlockCipher`).  `CipherOK`
states the library's contract on 16-byte blocks (decryption inverts
encryption, block length and byte range are preserved); theorems that rely on
the contract take it as a hypothesis.  CBC chaining, PKCS#7 padding, the
IV‖ciphertext layout, and the float32 (de)serialization are the repository's
own code and are modelled concretely. -/

/-- An AES block primitive: `AES.new(key, AES.MODE_CBC, iv).encrypt/.decrypt`
restricted to a single 16-byte block. -/
structure BlockCipher where
  enc : List ℕ → List ℕ
  dec : List ℕ → List ℕ

/-- Library contract of the AES block primitive on well-formed blocks. -/
def CipherOK (C : BlockCipher) : Prop :=
  ∀ b : List ℕ, b.length = 16 → (∀ x ∈ b, x < 256) →
    C.dec (C.enc b) = b ∧ (C.enc b).length = 16 ∧ ∀ x ∈ C.enc b, x < 256

/-- Byte-wise XOR of two equal-length byte strings (CBC chaining step). -/
def xorB (a b : List ℕ) : List ℕ := List.zipWith (fun x y => x ^^^ y) a b

/-- CBC encryption over a list of plaintext blocks, chaining from `prev`
(initially the IV). -/
def cbcE (E : List ℕ → List ℕ) : List ℕ → List (List ℕ) → List (List ℕ)
  | _, [] => []
  | prev, b :: bs => let c := E (xorB b prev); c :: cbcE E c bs

/-- CBC decryption over a list of ciphertext blocks, chaining from `prev`
(initially the IV). -/
def cbcD (D : List ℕ → List ℕ) : List ℕ → List (List ℕ) → List (List ℕ)
  | _, [] => []
  | prev, c :: cs => xorB (D c) prev :: cbcD D c cs

/-- PKCS#7 padding (`Crypto.Util.Padding.pad` with the 16-byte AES block
size): append `p` copies of the byte `p`, `p = 16 - len % 16 ∈ [1, 16]`. -/
def padP (bs : List ℕ) : List ℕ :=
  bs ++ List.replicate (16 - bs.length % 16) (16 - bs.length % 16)

/-- PKCS#7 unpadding (`Crypto.Util.Padding.unpad`): `none` models the
`ValueError` raised on absent or inconsistent padding (including the
empty-input `IndexError`, which the caller's `except` also absorbs). -/
def unpadP (bs : List ℕ) : Option (List ℕ) :=
  if bs.length % 16 ≠ 0 then none
  else match bs.getLast? with
    | none => none
    | some p =>
        if 1 ≤ p ∧ p ≤ 16 ∧ p ≤ bs.length ∧
            (bs.drop (bs.length - p)).all (fun x => x == p)
        then some (bs.take (bs.length - p)) else none

/-- Split a byte string into consecutive 16-byte blocks. -/
def toBlocks (bs : List ℕ) : List (List ℕ) :=
  if _h : bs = [] then [] else bs.take 16 :: toBlocks (bs.drop 16)
termination_by bs.length
decreasing_by
  have : bs.length ≠ 0 := fun hlen => _h (List.length_eq_zero.mp hlen)
  simp only [List.length_drop]
  omega

/-- Concatenate a list of blocks back into a byte string. -/
def concatB (blocks : List (List ℕ)) : List ℕ := blocks.foldr (· ++ ·) []

/-- `numpy.ndarray.tobytes` on a float32 array, with each element given by
its 32-bit pattern: little-endian 4-byte serialization. -/
def wordsToBytes : List ℕ → List ℕ
  | [] => []
  | w :: ws => w % 256 :: w / 256 % 256 :: w / 65536 % 256 :: w / 16777216 % 256 ::
      wordsToBytes ws

/-- `numpy.frombuffer(bytes, dtype='float32')`: reinterpret consecutive
4-byte groups as 32-bit words; a length not divisible by 4 raises
(`none`). -/
def bytesToWords : List ℕ → Option (List ℕ)
  | [] => some []
  | b0 :: b1 :: b2 :: b3 :: rest =>
      (bytesToWords rest).map
        (fun ws => (b0 + 256 * b1 + 65536 * b2 + 16777216 * b3) :: ws)
  | _ => none

/-- `IrisBiometricEngine.encrypt_template`, lines 253–278: serialize the
template, PKCS#7-pad, CBC-encrypt, prepend the IV, base64-encode.  The
fresh random IV (`get_random_bytes(16)`) is a parameter; the template's
float32 array is given by its list of 32-bit patterns. -/
def encrypt_template (C : BlockCipher) (iv : List ℕ) (tpl : List ℕ) : String :=
  b64encode (iv ++ concatB (cbcE C.enc iv (toBlocks (padP (wordsToBytes tpl)))))

/-- `IrisBiometricEngine.decrypt_template`, lines 280–305: base64-decode,
split off the 16-byte IV, CBC-decrypt, unpad, reinterpret as float32.
Every exception path (base64 error, bad IV size, ciphertext not a multiple
of the block size, padding error, buffer misalignment) is `none`. -/
def decrypt_template (C : BlockCipher) (s : String) : Option (List ℕ) :=
  match b64decode s with
  | none => none
  | some data =>
      if (data.take 16).length ≠ 16 then none
      else if (data.drop 16).length % 16 ≠ 0 then none
      else match unpadP (concatB (cbcD C.dec (data.take 16) (toBlocks (data.drop 16)))) with
        | none => none
        | some pt => bytesToWords pt

/-- A well-formed 16-byte block. -/
def B16 (b : List ℕ) : Prop := b.length = 16 ∧ ∀ x ∈ b, x < 256

theorem xorB_length (a b : List ℕ) : (xorB a b).length = min a.length b.length := by
  simp [xorB]

theorem xorB_B16 {a b : List ℕ} (ha : B16 a) (hb : B16 b) : B16 (xorB a b) := by
  constructor
  · simp [xorB_length, ha.1, hb.1]
  · intro x hx
    simp only [xorB] at hx
    rcases List.mem_iff_getElem.mp hx with ⟨i, hi, hget⟩
    simp only [List.getElem_zipWith] at hget
    have h8 : (256 : ℕ) = 2 ^ 8 := by norm_num
    rw [← hget, h8]
    have hia : i < a.length := by
      simp [List.length_zipWith] at hi; omega
    have hib : i < b.length := by
      simp [List.length_zipWith] at hi; omega
    exact Nat.xor_lt_two_pow (by rw [← h8]; exact ha.2 _ (a.getElem_mem hia))
      (by rw [← h8]; exact hb.2 _ (b.getElem_mem hib))

theorem xorB_cancel : ∀ a b : List ℕ, a.length ≤ b.length → xorB (xorB a b) b = a := by
  intro a
  induction a with
  | nil => intro b _; rfl
  | cons x xs ih =>
      intro b hlen
      cases b with
      | nil => simp at hlen
      | cons y ys =>
          simp only [xorB, List.zipWith_cons_cons] at *
          rw [Nat.xor_cancel_right]
          have := ih ys (by simpa using hlen)
          simp only [xorB] at this
          rw [this]

/-- CBC decryption inverts CBC encryption (blockwise, same chain value). -/
theorem cbcD_cbcE (C : BlockCipher) (hC : CipherOK C) :
    ∀ (blocks : List (List ℕ)) (prev : List ℕ), (∀ b ∈ blocks, B16 b) → B16 prev →
      cbcD C.dec prev (cbcE C.enc prev blocks) = blocks := by
  intro blocks
  induction blocks with
  | nil => intro prev _ _; rfl
  | cons b bs ih =>
      intro prev hbl hprev
      have hb : B16 b := hbl b (by simp)
      have hxor : B16 (xorB b prev) := xorB_B16 hb hprev
      have hcontract := hC (xorB b prev) hxor.1 hxor.2
      simp only [cbcE, cbcD]
      rw [hcontract.1, xorB_cancel b prev (by rw [hb.1, hprev.1]),
        ih (C.enc (xorB b prev)) (fun x hx => hbl x (by simp [hx]))
          ⟨hcontract.2.1, hcontract.2.2⟩]

theorem cbcE_blocks (C : BlockCipher) (hC : CipherOK C) :
    ∀ (blocks : List (List ℕ)) (prev : List ℕ), (∀ b ∈ blocks, B16 b) → B16 prev →
      ∀ c ∈ cbcE C.enc prev blocks, B16 c := by
  intro blocks
  induction blocks with
  | nil => intro prev _ _ c hc; simp [cbcE] at hc
  | cons b bs ih =>
      intro prev hbl hprev c hc
      have hb : B16 b := hbl b (by simp)
      have hxor : B16 (xorB b prev) := xorB_B16 hb hprev
      have hcontract := hC (xorB b prev) hxor.1 hxor.2
      simp only [cbcE, List.mem_cons] at hc
      rcases hc with rfl | hc
      · exact ⟨hcontract.2.1, hcontract.2.2⟩
      · exact ih (C.enc (xorB b prev)) (fun x hx => hbl x (by simp [hx]))
          ⟨hcontract.2.1, hcontract.2.2⟩ c hc

theorem toBlocks_nil : toBlocks [] = [] := by
  rw [toBlocks]
  rfl

theorem toBlocks_concatB : ∀ blocks : List (List ℕ),
    (∀ b ∈ blocks, b.length = 16) → toBlocks (concatB blocks) = blocks := by
  intro blocks
  induction blocks with
  | nil => intro _; exact toBlocks_nil
  | cons b bs ih =>
      intro hbl
      have hb : b.length = 16 := hbl b (by simp)
      have hnonnil : b ++ concatB bs ≠ [] := by
        intro h
        have := congrArg List.length h
        simp [hb] at this
      show toBlocks (b ++ concatB bs) = _
      rw [toBlocks, dif_neg hnonnil, List.take_left' hb, List.drop_left' hb,
        ih (fun x hx => hbl x (by simp [hx]))]

theorem concatB_toBlocks : ∀ bs : List ℕ, concatB (toBlocks bs) = bs := by
  intro bs
  induction bs using toBlocks.induct with
  | case1 =>
      rw [toBlocks_nil]
      rfl
  | case2 bs hnil ih =>
      rw [toBlocks, dif_neg hnil]
      show bs.take 16 ++ concatB (toBlocks (bs.drop 16)) = bs
      rw [ih]
      exact List.take_append_drop 16 bs

theorem toBlocks_mem_B16 : ∀ bs : List ℕ, bs.length % 16 = 0 → (∀ x ∈ bs, x < 256) →
    ∀ b ∈ toBlocks bs, B16 b := by
  intro bs
  induction bs using toBlocks.induct with
  | case1 =>
      intro _ _ b hb
      rw [toBlocks_nil] at hb
      simp at hb
  | case2 bs hnil ih =>
      intro hmod hrange b hb
      rw [toBlocks, dif_neg hnil] at hb
      have hlen : bs.length ≠ 0 := fun h => hnil (List.length_eq_zero.mp h)
      have hge : 16 ≤ bs.length := by omega
      rcases List.mem_cons.mp hb with rfl | hb
      · refine ⟨by simp [List.length_take]; omega, ?_⟩
        intro x hx
        exact hrange x (List.mem_of_mem_take hx)
      · exact ih (by simp [List.length_drop]; omega)
          (fun x hx => hrange x (List.mem_of_mem_drop hx)) b hb

theorem concatB_length_mod : ∀ blocks : List (List ℕ),
    (∀ b ∈ blocks, b.length = 16) → (concatB blocks).length % 16 = 0 := by
  intro blocks
  induction blocks with
  | nil => intro _; rfl
  | cons b bs ih =>
      intro hbl
      show (b ++ concatB bs).length % 16 = 0
      rw [List.length_append, hbl b (by simp)]
      have := ih (fun x hx => hbl x (by simp [hx]))
      omega

theorem concatB_mem {blocks : List (List ℕ)} {x : ℕ} (hx : x ∈ concatB blocks) :
    ∃ b ∈ blocks, x ∈ b := by
  induction blocks with
  | nil => simp [concatB] at hx
  | cons b bs ih =>
      rcases List.mem_append.mp hx with h | h
      · exact ⟨b, by simp, h⟩
      · rcases ih h with ⟨b', hb', hxb'⟩
        exact ⟨b', by simp [hb'], hxb'⟩

theorem padP_length_mod (bs : List ℕ) : (padP bs).length % 16 = 0 := by
  simp only [padP, List.length_append, List.length_replicate]
  omega

theorem padP_range {bs : List ℕ} (hb : ∀ x ∈ bs, x < 256) :
    ∀ x ∈ padP bs, x < 256 := by
  intro x hx
  rcases List.mem_append.mp hx with h | h
  · exact hb x h
  · have := List.eq_of_mem_replicate h
    omega

theorem getLast?_concat_replicate (bs : List ℕ) (p : ℕ) (hp : 1 ≤ p) :
    (bs ++ List.replicate p p).getLast? = some p := by
  rw [List.getLast?_append, List.getLast?_replicate]
  simp only [if_neg (by omega : ¬p = 0)]
  rfl

theorem unpadP_padP (bs : List ℕ) : unpadP (padP bs) = some bs := by
  set p := 16 - bs.length % 16 with hp_def
  have hp1 : 1 ≤ p := by omega
  have hp16 : p ≤ 16 := by omega
  have hlen : (padP bs).length = bs.length + p := by
    simp [padP, List.length_append, List.length_replicate]
  rw [unpadP, if_neg (by push_neg; exact padP_length_mod bs)]
  rw [show padP bs = bs ++ List.replicate p p from rfl]
  rw [getLast?_concat_replicate bs p hp1]
  dsimp only
  have hlen2 : (bs ++ List.replicate p p).length = bs.length + p := by
    simp [List.length_append, List.length_replicate]
  have hdrop : (bs ++ List.replicate p p).drop ((bs ++ List.replicate p p).length - p) =
      List.replicate p p := by
    rw [hlen2, Nat.add_sub_cancel, List.drop_left' rfl]
  have hall : ((bs ++ List.replicate p p).drop ((bs ++ List.replicate p p).length - p)).all
      (fun x => x == p) = true := by
    rw [hdrop]
    simp [List.all_eq_true]
  rw [if_pos ⟨hp1, hp16, by omega, hall⟩]
  rw [hlen2, Nat.add_sub_cancel, List.take_left' rfl]

theorem wordsToBytes_range : ∀ ws : List ℕ, ∀ x ∈ wordsToBytes ws, x < 256 := by
  intro ws
  induction ws with
  | nil => intro x hx; simp [wordsToBytes] at hx
  | cons w t ih =>
      intro x hx
      simp only [wordsToBytes, List.mem_cons] at hx
      rcases hx with rfl | rfl | rfl | rfl | hx
      · omega
      · omega
      · omega
      · omega
      · exact ih x hx

theorem bytesToWords_wordsToBytes : ∀ ws : List ℕ, (∀ w ∈ ws, w < 4294967296) →
    bytesToWords (wordsToBytes ws) = some ws := by
  intro ws
  induction ws with
  | nil => intro _; rfl
  | cons w t ih =>
      intro hw
      have hwlt : w < 4294967296 := hw w (by simp)
      show bytesToWords (_ :: _ :: _ :: _ :: wordsToBytes t) = _
      rw [bytesToWords, ih (fun x hx => hw x (by simp [hx]))]
      have : w % 256 + 256 * (w / 256 % 256) + 65536 * (w / 65536 % 256) +
          16777216 * (w / 16777216 % 256) = w := by omega
      simp [this]

/-- The trivial block permutation, used to instantiate cipher hypotheses at
concrete inputs. -/
def idCipher : BlockCipher := ⟨fun b => b, fun b => b⟩

theorem idCipher_ok : CipherOK idCipher := fun _ hl hb => ⟨rfl, hl, hb⟩

/-- C1: for every template (a float32 array, given by the 32-bit patterns of
its elements) and every 16-byte IV, `decrypt_template (encrypt_template T)`
returns a non-null array bit-identical to T's feature vector — in particular
equal within floating-point tolerance; the envelope loses no data.  The AES
contract `CipherOK` is the only assumption on the library primitive. -/
theorem encrypt_decrypt_roundtrip (C : BlockCipher) (hC : CipherOK C)
    (iv tpl : List ℕ) (hiv : B16 iv) (htpl : ∀ w ∈ tpl, w < 4294967296) :
    decrypt_template C (encrypt_template C iv tpl) = some tpl := by
  have hbytes_range : ∀ x ∈ wordsToBytes tpl, x < 256 := wordsToBytes_range tpl
  have hpadrange : ∀ x ∈ padP (wordsToBytes tpl), x < 256 := padP_range hbytes_range
  have hpadmod : (padP (wordsToBytes tpl)).length % 16 = 0 :=
    padP_length_mod (wordsToBytes tpl)
  have hblocks : ∀ b ∈ toBlocks (padP (wordsToBytes tpl)), B16 b :=
    toBlocks_mem_B16 _ hpadmod hpadrange
  have hctB : ∀ c ∈ cbcE C.enc iv (toBlocks (padP (wordsToBytes tpl))), B16 c :=
    cbcE_blocks C hC _ iv hblocks hiv
  have hdata_range :
      ∀ x ∈ iv ++ concatB (cbcE C.enc iv (toBlocks (padP (wordsToBytes tpl)))), x < 256 := by
    intro x hx
    rcases List.mem_append.mp hx with h | h
    · exact hiv.2 x h
    · rcases concatB_mem h with ⟨b, hb, hxb⟩
      exact (hctB b hb).2 x hxb
  show decrypt_template C
    (b64encode (iv ++ concatB (cbcE C.enc iv (toBlocks (padP (wordsToBytes tpl)))))) = some tpl
  rw [decrypt_template, b64_roundtrip hdata_range]
  dsimp only
  rw [List.take_left' hiv.1, List.drop_left' hiv.1]
  rw [if_neg (by rw [hiv.1]; exact fun h => h rfl)]
  have hctmod : (concatB (cbcE C.enc iv (toBlocks (padP (wordsToBytes tpl))))).length % 16 = 0 :=
    concatB_length_mod _ (fun b hb => (hctB b hb).1)
  rw [if_neg (by rw [hctmod]; exact fun h => h rfl)]
  rw [toBlocks_concatB _ (fun b hb => (hctB b hb).1)]
  rw [cbcD_cbcE C hC _ iv hblocks hiv]
  rw [concatB_toBlocks]
  rw [unpadP_padP]
  exact bytesToWords_wordsToBytes tpl htpl

/-- Witness for C1 at a concrete cipher, IV and template. -/
theorem encrypt_decrypt_roundtrip_witness :
    CipherOK idCipher ∧ B16 (List.replicate 16 0) ∧ (∀ w ∈ [1, 2, 3, 4], w < 4294967296) ∧
    decrypt_template idCipher
      (encrypt_template idCipher (List.replicate 16 0) [1, 2, 3, 4]) = some [1, 2, 3, 4] :=
  ⟨fun _ hl hb => ⟨rfl, hl, hb⟩, ⟨by decide, by decide⟩, by decide,
    encrypt_decrypt_roundtrip idCipher (fun _ hl hb => ⟨rfl, hl, hb⟩)
      (List.replicate 16 0) [1, 2, 3, 4] ⟨by decide, by decide⟩ (by decide)⟩

/-- C9: `decrypt_template` fails closed.  Whatever the cipher does, every
enumerated failure mode returns `none` (the model of "returns null, never
raises": all exception paths of the source are absorbed into `none`):
malformed base64 (including the literal `"not-valid-base64!!!"`), truncated
data (fewer than 16 decoded bytes, or a ciphertext that is not a whole
number of 16-byte blocks), and a failed padding check. -/
theorem decrypt_fail_closed (C : BlockCipher) :
    (∀ s, b64decode s = none → decrypt_template C s = none) ∧
    (∀ s data, b64decode s = some data → data.length < 16 →
      decrypt_template C s = none) ∧
    (∀ s data, b64decode s = some data → (data.drop 16).length % 16 ≠ 0 →
      decrypt_template C s = none) ∧
    (∀ s data, b64decode s = some data →
      unpadP (concatB (cbcD C.dec (data.take 16) (toBlocks (data.drop 16)))) = none →
      decrypt_template C s = none) ∧
    decrypt_template C "not-valid-base64!!!" = none := by
  have hlit : b64decode "not-valid-base64!!!" = none := by decide
  refine ⟨?_, ?_, ?_, ?_, ?_⟩
  · intro s h
    rw [decrypt_template, h]
  · intro s data h hlt
    rw [decrypt_template, h]
    dsimp only
    rw [if_pos (by simp only [List.length_take]; omega)]
  · intro s data h hmod
    rw [decrypt_template, h]
    dsimp only
    have hlen : 16 ≤ data.length := by
      by_contra hcon
      push_neg at hcon
      apply hmod
      simp only [List.length_drop]
      omega
    rw [if_neg (by simp only [List.length_take]; omega), if_pos hmod]
  · intro s data h hunpad
    rw [decrypt_template, h]
    dsimp only
    by_cases h1 : (data.take 16).length ≠ 16
    · rw [if_pos h1]
    · rw [if_neg h1]
      by_cases h2 : (data.drop 16).length % 16 ≠ 0
      · rw [if_pos h2]
      · rw [if_neg h2, hunpad]
  · rw [decrypt_template, hlit]

/-- Witness for C9 at the corrupt-ciphertext scenario of the spec. -/
theorem decrypt_fail_closed_witness :
    b64decode "not-valid-base64!!!" = none ∧
    decrypt_template idCipher "not-valid-base64!!!" = none :=
  ⟨by decide, (decrypt_fail_closed idCipher).1 "not-valid-base64!!!" (by decide)⟩

theorem set_append_left {α : Type} (s t : List α) (j : ℕ) (a : α) (hj : j < s.length) :
    (s ++ t).set j a = s.set j a ++ t := by
  rw [List.set_append, if_pos hj]

theorem drop_set_of_lt {α : Type} (l : List α) (j k : ℕ) (a : α) (hjk : j < k) :
    (l.set j a).drop k = l.drop k := by
  apply List.ext_getElem?
  intro n
  rw [List.getElem?_drop, List.getElem?_drop, List.getElem?_set, if_neg (by omega)]

theorem take_set_of_lt {α : Type} (l : List α) (j k : ℕ) (a : α) (hjk : j < k) :
    (l.set j a).take k = (l.take k).set j a := by
  apply List.ext_getElem?
  intro n
  simp only [List.getElem?_take, List.getElem?_set, List.length_take, lt_min_iff]
  split_ifs <;> first | rfl | omega

theorem getLast?_set_of_lt {α : Type} (l : List α) (j : ℕ) (a : α)
    (hj : j + 1 < l.length) : (l.set j a).getLast? = l.getLast? := by
  rw [List.getLast?_eq_getElem?, List.getLast?_eq_getElem?, List.length_set,
    List.getElem?_set, if_neg (by omega)]

theorem mem_getD_of_lt {l : List ℕ} {j : ℕ} (hj : j < l.length) : l.getD j 0 ∈ l := by
  rw [List.getD_eq_getElem l 0 hj]
  exact l.getElem_mem hj

/-- XOR-chasing the CBC head block: re-decrypting with an IV altered at
position `j` alters exactly position `j` of the first plaintext block. -/
theorem xorB_xorB_set : ∀ (B iv : List ℕ) (j : ℕ) (d : ℕ), B.length = iv.length →
    j < B.length →
    xorB (xorB B iv) (iv.set j d) = B.set j ((B.getD j 0 ^^^ iv.getD j 0) ^^^ d) := by
  intro B
  induction B with
  | nil => intro iv j d _ hj; simp at hj
  | cons b B' ih =>
      intro iv j d hlen hj
      cases iv with
      | nil => simp at hlen
      | cons v iv' =>
          cases j with
          | zero =>
              show xorB ((b ^^^ v) :: xorB B' iv') (d :: iv') = _
              show ((b ^^^ v) ^^^ d) :: xorB (xorB B' iv') iv' = _
              rw [xorB_cancel B' iv' (le_of_eq (by simpa using hlen))]
              rfl
          | succ n =>
              show xorB ((b ^^^ v) :: xorB B' iv') (v :: iv'.set n d) = _
              show ((b ^^^ v) ^^^ v) :: xorB (xorB B' iv') (iv'.set n d) = _
              rw [Nat.xor_cancel_right,
                ih iv' n d (by simpa using hlen) (by simpa using hj)]
              rfl

/-- Setting a byte (to a fresh value) before deserialization yields a
word vector of the same length that differs from the original. -/
theorem bytesToWords_set : ∀ (bytes : List ℕ) (j e : ℕ) (ws : List ℕ),
    bytesToWords bytes = some ws → (∀ x ∈ bytes, x < 256) → e < 256 →
    j < bytes.length → e ≠ bytes.getD j 0 →
    ∃ ws', bytesToWords (bytes.set j e) = some ws' ∧ ws'.length = ws.length ∧
      ws' ≠ ws := by
  intro bytes
  induction bytes using bytesToWords.induct with
  | case1 =>
      intro j e ws _ _ _ hj _
      simp at hj
  | case2 b0 b1 b2 b3 rest ih =>
      intro j e ws hws hrange he hj hne
      rw [bytesToWords] at hws
      cases hrest : bytesToWords rest with
      | none => rw [hrest] at hws; simp at hws
      | some wsr =>
          rw [hrest] at hws
          obtain rfl : (b0 + 256 * b1 + 65536 * b2 + 16777216 * b3) :: wsr = ws := by
            simpa using hws
          have hb0 : b0 < 256 := hrange b0 (by simp)
          have hb1 : b1 < 256 := hrange b1 (by simp)
          have hb2 : b2 < 256 := hrange b2 (by simp)
          have hb3 : b3 < 256 := hrange b3 (by simp)
          by_cases hj4 : j < 4
          · -- the alteration lands in the first word
            have hword : ∀ w', bytesToWords ((b0 :: b1 :: b2 :: b3 :: rest).set j e) =
                some (w' :: wsr) →
                w' ≠ b0 + 256 * b1 + 65536 * b2 + 16777216 * b3 →
                ∃ ws', bytesToWords ((b0 :: b1 :: b2 :: b3 :: rest).set j e) =
                  some ws' ∧ ws'.length = wsr.length + 1 ∧
                  ws' ≠ (b0 + 256 * b1 + 65536 * b2 + 16777216 * b3) :: wsr := by
              intro w' hset hne'
              exact ⟨w' :: wsr, hset, by simp, by simp [hne']⟩
            interval_cases j
            · refine hword (e + 256 * b1 + 65536 * b2 + 16777216 * b3) ?_ ?_
              · show bytesToWords (e :: b1 :: b2 :: b3 :: rest) = _
                rw [bytesToWords, hrest]
                rfl
              · have : e ≠ b0 := by simpa using hne
                omega
            · refine hword (b0 + 256 * e + 65536 * b2 + 16777216 * b3) ?_ ?_
              · show bytesToWords (b0 :: e :: b2 :: b3 :: rest) = _
                rw [bytesToWords, hrest]
                rfl
              · have : e ≠ b1 := by simpa using hne
                omega
            · refine hword (b0 + 256 * b1 + 65536 * e + 16777216 * b3) ?_ ?_
              · show bytesToWords (b0 :: b1 :: e :: b3 :: rest) = _
                rw [bytesToWords, hrest]
                rfl
              · have : e ≠ b2 := by simpa using hne
                omega
            · refine hword (b0 + 256 * b1 + 65536 * b2 + 16777216 * e) ?_ ?_
              · show bytesToWords (b0 :: b1 :: b2 :: e :: rest) = _
                rw [bytesToWords, hrest]
                rfl
              · have : e ≠ b3 := by simpa using hne
                omega
          · -- the alteration lands in a later word
            obtain ⟨m, rfl⟩ : ∃ m, j = m + 4 := ⟨j - 4, by omega⟩
            have hrange' : ∀ x ∈ rest, x < 256 := fun x hx => hrange x (by simp [hx])
            have hjm : m < rest.length := by
              simp only [List.length_cons] at hj
              omega
            have hnem : e ≠ rest.getD m 0 := by
              simpa [List.getD_cons_succ] using hne
            rcases ih m e wsr hrest hrange' he hjm hnem with ⟨wsr', hset', hlen', hne'⟩
            refine ⟨(b0 + 256 * b1 + 65536 * b2 + 16777216 * b3) :: wsr', ?_, by simp [hlen'], by simp [hne']⟩
            show bytesToWords (b0 :: b1 :: b2 :: b3 :: rest.set m e) = _
            rw [bytesToWords, hset']
            rfl
  | case3 t h1 h2 =>
      intro j e ws hws _ _ _ _
      exfalso
      match t, h1, h2 with
      | [], h1, _ => exact h1 rfl
      | [a], _, _ => simp [bytesToWords] at hws
      | [a, b], _, _ => simp [bytesToWords] at hws
      | [a, b, c], _, _ => simp [bytesToWords] at hws
      | a :: b :: c :: d :: r, _, h2 => exact h2 a b c d r rfl

theorem wordsToBytes_length : ∀ ws : List ℕ, (wordsToBytes ws).length = 4 * ws.length := by
  intro ws
  induction ws with
  | nil => rfl
  | cons w t ih =>
      show (_ :: _ :: _ :: _ :: wordsToBytes t).length = _
      simp only [List.length_cons, ih]
      omega

/-- Unpadding after altering a byte of the data part leaves the padding
check untouched and strips the same amount. -/
theorem unpadP_padP_set (bs : List ℕ) (j e : ℕ) (hj : j < bs.length) :
    unpadP ((padP bs).set j e) = some (bs.set j e) := by
  set p := 16 - bs.length % 16 with hp_def
  have hp1 : 1 ≤ p := by omega
  have hp16 : p ≤ 16 := by omega
  have hpadeq : padP bs = bs ++ List.replicate p p := rfl
  rw [hpadeq]
  have hL2 : ((bs ++ List.replicate p p).set j e).length = bs.length + p := by
    simp [List.length_set, List.length_append, List.length_replicate]
  have hmod : ((bs ++ List.replicate p p).set j e).length % 16 = 0 := by
    rw [hL2]
    omega
  rw [unpadP, if_neg (by push_neg; exact hmod)]
  rw [getLast?_set_of_lt _ j e (by simp [List.length_append]; omega),
    getLast?_concat_replicate bs p hp1]
  dsimp only
  have hdrop : ((bs ++ List.replicate p p).set j e).drop
      (((bs ++ List.replicate p p).set j e).length - p) = List.replicate p p := by
    rw [hL2, Nat.add_sub_cancel]
    rw [drop_set_of_lt _ j bs.length e hj, List.drop_left' rfl]
  have hall : (((bs ++ List.replicate p p).set j e).drop
      (((bs ++ List.replicate p p).set j e).length - p)).all (fun x => x == p) = true := by
    rw [hdrop]
    simp [List.all_eq_true]
  rw [if_pos ⟨hp1, hp16, by rw [hL2]; omega, hall⟩]
  rw [hL2, Nat.add_sub_cancel]
  rw [take_set_of_lt _ j bs.length e hj, List.take_left' rfl]

/-- C10: `decrypt_template` performs no integrity or authenticity check.
For a template of at least 4 float32 elements, altering any byte of the
first 16 bytes (the IV) of the decoded blob still decrypts to a non-null
vector of the template's length; the result silently differs from the
original template instead of being reported as a failure. -/
theorem decrypt_no_integrity (C : BlockCipher) (hC : CipherOK C)
    (iv tpl data : List ℕ) (hiv : B16 iv) (htpl : ∀ w ∈ tpl, w < 4294967296)
    (hlen4 : 4 ≤ tpl.length) (j d : ℕ) (hj : j < 16) (hd : d < 256)
    (hne : d ≠ iv.getD j 0)
    (hdata : b64decode (encrypt_template C iv tpl) = some data) :
    ∃ v, decrypt_template C (b64encode (data.set j d)) = some v ∧
      v.length = tpl.length ∧ v ≠ tpl := by
  -- shared well-formedness facts, as in the round-trip theorem
  have hbytes_range : ∀ x ∈ wordsToBytes tpl, x < 256 := wordsToBytes_range tpl
  have hbytes_len : (wordsToBytes tpl).length = 4 * tpl.length := wordsToBytes_length tpl
  have hpadrange : ∀ x ∈ padP (wordsToBytes tpl), x < 256 := padP_range hbytes_range
  have hpadmod : (padP (wordsToBytes tpl)).length % 16 = 0 :=
    padP_length_mod (wordsToBytes tpl)
  have hblocks : ∀ b ∈ toBlocks (padP (wordsToBytes tpl)), B16 b :=
    toBlocks_mem_B16 _ hpadmod hpadrange
  have hctB : ∀ c ∈ cbcE C.enc iv (toBlocks (padP (wordsToBytes tpl))), B16 c :=
    cbcE_blocks C hC _ iv hblocks hiv
  have hdata_range :
      ∀ x ∈ iv ++ concatB (cbcE C.enc iv (toBlocks (padP (wordsToBytes tpl)))), x < 256 := by
    intro x hx
    rcases List.mem_append.mp hx with h | h
    · exact hiv.2 x h
    · rcases concatB_mem h with ⟨b, hb, hxb⟩
      exact (hctB b hb).2 x hxb
  -- identify the decoded blob
  rw [show encrypt_template C iv tpl = b64encode
      (iv ++ concatB (cbcE C.enc iv (toBlocks (padP (wordsToBytes tpl))))) from rfl,
    b64_roundtrip hdata_range] at hdata
  obtain rfl : iv ++ concatB (cbcE C.enc iv (toBlocks (padP (wordsToBytes tpl)))) = data :=
    Option.some_injective _ hdata
  -- the tampered blob
  rw [set_append_left _ _ j d (by rw [hiv.1]; exact hj)]
  have hiv' : B16 (iv.set j d) := by
    refine ⟨by rw [List.length_set, hiv.1], ?_⟩
    intro x hx
    rcases List.mem_or_eq_of_mem_set hx with h | rfl
    · exact hiv.2 x h
    · exact hd
  have hdata_range' :
      ∀ x ∈ iv.set j d ++ concatB (cbcE C.enc iv (toBlocks (padP (wordsToBytes tpl)))),
        x < 256 := by
    intro x hx
    rcases List.mem_append.mp hx with h | h
    · exact hiv'.2 x h
    · rcases concatB_mem h with ⟨b, hb, hxb⟩
      exact (hctB b hb).2 x hxb
  rw [decrypt_template, b64_roundtrip hdata_range']
  dsimp only
  rw [List.take_left' hiv'.1, List.drop_left' hiv'.1]
  rw [if_neg (by rw [hiv'.1]; exact fun h => h rfl)]
  have hctmod : (concatB (cbcE C.enc iv (toBlocks (padP (wordsToBytes tpl))))).length % 16 = 0 :=
    concatB_length_mod _ (fun b hb => (hctB b hb).1)
  rw [if_neg (by rw [hctmod]; exact fun h => h rfl)]
  rw [toBlocks_concatB _ (fun b hb => (hctB b hb).1)]
  -- expose the head block of the padded plaintext
  have hpadlen : 32 ≤ (padP (wordsToBytes tpl)).length := by
    have h1 : 16 ≤ (wordsToBytes tpl).length := by omega
    have h2 : (padP (wordsToBytes tpl)).length = (wordsToBytes tpl).length +
        (16 - (wordsToBytes tpl).length % 16) := by
      rw [show padP (wordsToBytes tpl) = wordsToBytes tpl ++ _ from rfl]
      simp [List.length_append, List.length_replicate]
    omega
  have hpad_ne : padP (wordsToBytes tpl) ≠ [] := by
    intro h
    rw [h] at hpadlen
    simp at hpadlen
  have hshape : toBlocks (padP (wordsToBytes tpl)) =
      (padP (wordsToBytes tpl)).take 16 :: toBlocks ((padP (wordsToBytes tpl)).drop 16) := by
    rw [toBlocks, dif_neg hpad_ne]
  rw [hshape]
  have hB0 : B16 ((padP (wordsToBytes tpl)).take 16) :=
    hblocks _ (by rw [hshape]; exact List.mem_cons_self _ _)
  have hBrest : ∀ b ∈ toBlocks ((padP (wordsToBytes tpl)).drop 16), B16 b := by
    intro b hb
    exact hblocks b (by rw [hshape]; exact List.mem_cons_of_mem _ hb)
  have hxor0 : B16 (xorB ((padP (wordsToBytes tpl)).take 16) iv) := xorB_B16 hB0 hiv
  have hc0 := hC _ hxor0.1 hxor0.2
  have hjB0 : j < ((padP (wordsToBytes tpl)).take 16).length := by
    rw [hB0.1]
    exact hj
  have hj_len : j < (wordsToBytes tpl).length := by omega
  have hq256 : ((padP (wordsToBytes tpl)).take 16).getD j 0 < 256 :=
    hB0.2 _ (mem_getD_of_lt hjB0)
  have hiv256 : iv.getD j 0 < 256 := hiv.2 _ (mem_getD_of_lt (by rw [hiv.1]; exact hj))
  have hxor8 : ∀ a b : ℕ, a < 256 → b < 256 → a ^^^ b < 256 := by
    intro a b ha hb
    have h8 : (256 : ℕ) = 2 ^ 8 := by norm_num
    rw [h8] at *
    exact Nat.xor_lt_two_pow ha hb
  have he256 : (((padP (wordsToBytes tpl)).take 16).getD j 0 ^^^ iv.getD j 0) ^^^ d < 256 :=
    hxor8 _ _ (hxor8 _ _ hq256 hiv256) hd
  -- the head block of the padded plaintext agrees with the serialized bytes
  have hB0_bytes : ((padP (wordsToBytes tpl)).take 16).getD j 0 =
      (wordsToBytes tpl).getD j 0 := by
    rw [show padP (wordsToBytes tpl) = wordsToBytes tpl ++ _ from rfl,
      List.take_append_of_le_length (by omega)]
    rw [List.getD_eq_getElem _ 0 (by rw [List.length_take]; omega),
      List.getD_eq_getElem _ 0 hj_len]
    have h1 : ((wordsToBytes tpl).take 16)[j]? = (wordsToBytes tpl)[j]? := by
      rw [List.getElem?_take, if_pos hj]
    rw [List.getElem?_eq_getElem, List.getElem?_eq_getElem] at h1
    exact Option.some_injective _ h1
  have he_ne : (((padP (wordsToBytes tpl)).take 16).getD j 0 ^^^ iv.getD j 0) ^^^ d ≠
      (wordsToBytes tpl).getD j 0 := by
    rw [hB0_bytes]
    intro hcon
    rw [Nat.xor_assoc] at hcon
    have h0 : iv.getD j 0 ^^^ d = 0 := by
      have h2 := congrArg (fun t => (wordsToBytes tpl).getD j 0 ^^^ t) hcon
      simp only [← Nat.xor_assoc, Nat.xor_self, Nat.zero_xor] at h2
      exact h2
    exact hne (Nat.xor_eq_zero.mp h0).symm
  have htail : cbcD C.dec (C.enc (xorB ((padP (wordsToBytes tpl)).take 16) iv))
      (cbcE C.enc (C.enc (xorB ((padP (wordsToBytes tpl)).take 16) iv))
        (toBlocks ((padP (wordsToBytes tpl)).drop 16))) =
      toBlocks ((padP (wordsToBytes tpl)).drop 16) :=
    cbcD_cbcE C hC _ _ hBrest ⟨hc0.2.1, hc0.2.2⟩
  have hscrut : concatB (cbcD C.dec (iv.set j d)
      (cbcE C.enc iv ((padP (wordsToBytes tpl)).take 16 ::
        toBlocks ((padP (wordsToBytes tpl)).drop 16)))) =
      (padP (wordsToBytes tpl)).set j
        ((((padP (wordsToBytes tpl)).take 16).getD j 0 ^^^ iv.getD j 0) ^^^ d) := by
    simp only [cbcE, cbcD]
    rw [hc0.1, htail]
    rw [xorB_xorB_set _ iv j d (by rw [hB0.1, hiv.1]) hjB0]
    show ((padP (wordsToBytes tpl)).take 16).set j _ ++
      concatB (toBlocks ((padP (wordsToBytes tpl)).drop 16)) = _
    rw [concatB_toBlocks, ← set_append_left _ _ j _ hjB0, List.take_append_drop]
  rw [hscrut]
  have hBq : ((padP (wordsToBytes tpl)).set j
      ((((padP (wordsToBytes tpl)).take 16).getD j 0 ^^^ iv.getD j 0) ^^^ d)) =
      ((padP (wordsToBytes tpl)).set j
      ((((padP (wordsToBytes tpl)).take 16).getD j 0 ^^^ iv.getD j 0) ^^^ d)) := rfl
  rw [unpadP_padP_set (wordsToBytes tpl) j _ hj_len]
  rcases bytesToWords_set (wordsToBytes tpl) j _ tpl
      (bytesToWords_wordsToBytes tpl htpl) hbytes_range he256 hj_len he_ne with
    ⟨ws', hw1, hw2, hw3⟩
  exact ⟨ws', hw1, hw2, hw3⟩

/-- Witness for C10: a concrete 4-element template whose encrypted blob,
tampered at IV byte 0, still decrypts to a 4-element vector. -/
theorem decrypt_no_integrity_witness :
    (∀ w ∈ [1, 2, 3, 4], w < 4294967296) ∧ (5 : ℕ) ≠ (List.replicate 16 0).getD 0 0 ∧
    b64decode (encrypt_template idCipher (List.replicate 16 0) [1, 2, 3, 4]) =
      some (List.replicate 16 0 ++ concatB (cbcE idCipher.enc (List.replicate 16 0)
        (toBlocks (padP (wordsToBytes [1, 2, 3, 4]))))) ∧
    ∃ v, decrypt_template idCipher
        (b64encode ((List.replicate 16 0 ++ concatB (cbcE idCipher.enc (List.replicate 16 0)
          (toBlocks (padP (wordsToBytes [1, 2, 3, 4]))))).set 0 5)) = some v ∧
      v.length = ([1, 2, 3, 4] : List ℕ).length ∧ v ≠ [1, 2, 3, 4] := by
  have hC : CipherOK idCipher := fun _ hl hb => ⟨rfl, hl, hb⟩
  have hiv : B16 (List.replicate 16 0) := ⟨by decide, by decide⟩
  have hctB : ∀ c ∈ cbcE idCipher.enc (List.replicate 16 0)
      (toBlocks (padP (wordsToBytes [1, 2, 3, 4]))), B16 c :=
    cbcE_blocks idCipher hC _ _
      (toBlocks_mem_B16 _ (padP_length_mod _) (padP_range (wordsToBytes_range _))) hiv
  have hdata_range : ∀ x ∈ List.replicate 16 0 ++ concatB (cbcE idCipher.enc
      (List.replicate 16 0) (toBlocks (padP (wordsToBytes [1, 2, 3, 4])))), x < 256 := by
    intro x hx
    rcases List.mem_append.mp hx with h | h
    · exact hiv.2 x h
    · rcases concatB_mem h with ⟨b, hb, hxb⟩
      exact (hctB b hb).2 x hxb
  have hdata : b64decode (encrypt_template idCipher (List.replicate 16 0) [1, 2, 3, 4]) =
      some (List.replicate 16 0 ++ concatB (cbcE idCipher.enc (List.replicate 16 0)
        (toBlocks (padP (wordsToBytes [1, 2, 3, 4]))))) := b64_roundtrip hdata_range
  exact ⟨by decide, by decide, hdata,
    decrypt_no_integrity idCipher hC (List.replicate 16 0) [1, 2, 3, 4] _ hiv (by decide)
      (by decide) 0 5 (by decide) (by decide) (by decide) hdata⟩

/-! ### Image pipeline (`detect_iris_region`, `extract_features`,
`_calculate_quality`, `create_template`, `match_templates`, `check_liveness`)

A grayscale image is a list of pixel rows (`Grid`), as in the NumPy source.
Library primitives (frame decoding, Gaussian blur, Hough circle search,
resize, LBP, HOG, Gabor filtering, Laplacian) live in a `CVEnv` parameter;
their documented shape/range contracts appear as theorem hypotheses.  Float
arithmetic is idealized over `ℝ`. -/

/-- A grayscale image: rows of 8-bit pixel intensities. -/
abbrev Grid := List (List ℕ)

/-- `ndarray.size`: total number of elements. -/
def gridSize (g : Grid) : ℕ := (g.map List.length).sum

/-- Image width (`shape[1]` of a rectangular array). -/
def gridW (g : Grid) : ℕ := (g.headD []).length

/-- NumPy 2-D slicing `g[y1:y2, x1:x2]`. -/
def cropG (g : Grid) (y1 y2 x1 x2 : ℕ) : Grid :=
  ((g.drop y1).take (y2 - y1)).map (fun row => (row.drop x1).take (x2 - x1))

/-- `ndarray.ravel()`: row-major flattening. -/
def gridFlat (g : Grid) : List ℕ := g.foldr (· ++ ·) []

/-- Insert into a sorted list (ascending). -/
def insertSorted (x : ℕ) : List ℕ → List ℕ
  | [] => [x]
  | y :: t => if x ≤ y then x :: y :: t else y :: insertSorted x t

/-- Sort ascending (the sorted order `np.median` works with). -/
def sortNats : List ℕ → List ℕ
  | [] => []
  | x :: t => insertSorted x (sortNats t)

/-- The library primitives the engine calls, as abstract parameters:
`preprocess_frame` (decode + CLAHE + denoise, returning `none` on decode
failure), `cv2.GaussianBlur`, the first circle of `cv2.HoughCircles` after
`np.uint16(np.around(...))` rounding (`none` when no circle is found),
`cv2.resize` to `(width, height)`, the raveled integer-valued code map of
`skimage local_binary_pattern(P=8, R=1, method='uniform')`, the `skimage.hog`
feature vector, the raveled 8-bit output of `cv2.filter2D` with the Gabor
kernel for orientation index `θ ∈ [0, 4)`, and the raveled `cv2.Laplacian`
response. -/
structure CVEnv where
  preprocess : String → Option Grid
  blur : Grid → Grid
  houghFirst : Grid → Option (ℕ × ℕ × ℕ)
  resize : Grid → ℕ → ℕ → Grid
  lbpCodes : Grid → List ℕ
  hogVec : Grid → List ℝ
  gaborGrid : ℕ → Grid → List ℕ
  laplacian : Grid → List ℝ

/-- `IrisBiometricEngine.detect_iris_region`, lines 62–116.  With a detected
circle: line 85 casts the rounded circle values to `np.uint16` (reduce
mod 2^16); line 90 expands the radius (`int(r * 1.3)`, a Python `int`,
which for uint16 `r` equals `13 * r / 10`); lines 94–97 compute the box.
`x` and `y` are `np.uint16` scalars, so `x - r` and `x + r` are unsigned
16-bit arithmetic and wrap modulo 2^16 (for expanded radii that fit in 16
bits, which Hough's `maxRadius=120` guarantees); `max(0, ·)` therefore
never clips — when the expanded radius exceeds `x` (or `y`) the wrapped
difference is huge, the circle crop comes out empty, and control falls
through to the center-crop fallback.  `min` clips the right/bottom edges.
`none` only when the final crop is empty. -/
def detect_iris_region (E : CVEnv) (g : Grid) : Option Grid :=
  let h := g.length
  let w := gridW g
  let fallback :=
    let cc := cropG g (h / 4) (3 * h / 4) (w / 4) (3 * w / 4)
    if 0 < gridSize cc then some (E.resize cc 128 128) else none
  match E.houghFirst (E.blur g) with
  | some (x0, y0, r0) =>
      let x := x0 % 65536
      let y := y0 % 65536
      let r := r0 % 65536
      let r2 := 13 * r / 10
      let x1 := max 0 ((x + 65536 - r2 % 65536) % 65536)
      let y1 := max 0 ((y + 65536 - r2 % 65536) % 65536)
      let x2 := min w ((x + r2) % 65536)
      let y2 := min h ((y + r2) % 65536)
      let iris := cropG g y1 y2 x1 x2
      if 0 < gridSize iris then some (E.resize iris 128 128) else fallback
  | none => fallback

noncomputable section

/-- `np.mean` of a real list (0 when empty, matching `x / 0 = 0`). -/
def rmean (l : List ℝ) : ℝ := l.sum / l.length

/-- `np.var`: population variance. -/
def rvar (l : List ℝ) : ℝ := ((l.map (fun x => (x - rmean l) ^ 2)).sum) / l.length

/-- `np.std`: square root of the population variance. -/
def rstd (l : List ℝ) : ℝ := Real.sqrt (rvar l)

/-- `np.linalg.norm`: Euclidean norm. -/
def euclNorm (l : List ℝ) : ℝ := Real.sqrt ((l.map (fun x => x ^ 2)).sum)

/-- Cast a pixel list to reals. -/
def natsR (l : List ℕ) : List ℝ := l.map (fun (n : ℕ) => (n : ℝ))

/-- Mean intensity of a list of pixels. -/
def natMean (l : List ℕ) : ℝ := rmean (natsR l)

/-- Standard deviation of a list of pixels. -/
def natStd (l : List ℕ) : ℝ := rstd (natsR l)

/-- `ndarray.mean()` of an image. -/
def gridMean (g : Grid) : ℝ := natMean (gridFlat g)

/-- `np.median`: midpoint of the sorted values (mean of the two middle
values for an even count). -/
def npMedian (l : List ℕ) : ℝ :=
  if l.length = 0 then 0
  else if l.length % 2 = 1 then ((sortNats l).getD (l.length / 2) 0 : ℕ)
  else (((sortNats l).getD (l.length / 2 - 1) 0 : ℕ) +
    ((sortNats l).getD (l.length / 2) 0 : ℕ)) / 2

end

/-- One bin of `np.histogram(·, bins=32, range=(0, 32))` over integer-valued
codes: bin `i < 31` covers `[i, i+1)`, the last bin is closed `[31, 32]`. -/
def binCount (codes : List ℕ) (i : ℕ) : ℕ :=
  if i = 31 then codes.countP (fun c => decide (31 ≤ c ∧ c ≤ 32)) else codes.count i

/-- The 32 LBP histogram counts. -/
def histCounts (codes : List ℕ) : List ℕ := (List.range 32).map (binCount codes)

noncomputable section

/-- Sub-feature (a): the 32-bin LBP histogram, normalized by
`hist.sum() + 1e-7`. -/
def lbpHistPart (E : CVEnv) (g : Grid) : List ℝ :=
  (histCounts (E.lbpCodes g)).map
    (fun (c : ℕ) => (c : ℝ) / (((histCounts (E.lbpCodes g)).sum : ℕ) + 1 / 10000000))

/-- Sub-feature (b): the first 64 HOG values (`hog_features[:64]`). -/
def hogPart (E : CVEnv) (g : Grid) : List ℝ := (E.hogVec g).take 64

/-- Sub-feature (c): mean and standard deviation of the Gabor response at
each of the four orientations, in loop order. -/
def gaborPart (E : CVEnv) (g : Grid) : List ℝ :=
  [natMean (E.gaborGrid 0 g), natStd (E.gaborGrid 0 g),
   natMean (E.gaborGrid 1 g), natStd (E.gaborGrid 1 g),
   natMean (E.gaborGrid 2 g), natStd (E.gaborGrid 2 g),
   natMean (E.gaborGrid 3 g), natStd (E.gaborGrid 3 g)]

/-- Sub-feature (d): the five intensity statistics (mean, std, median,
min, max). -/
def statsPart (g : Grid) : List ℝ :=
  [natMean (gridFlat g), natStd (gridFlat g), npMedian (gridFlat g),
   (((gridFlat g).min?.getD 0 : ℕ) : ℝ), (((gridFlat g).max?.getD 0 : ℕ) : ℝ)]

/-- The concatenated raw feature vector, before L2 normalization. -/
def rawFeat (E : CVEnv) (g : Grid) : List ℝ :=
  lbpHistPart E g ++ hogPart E g ++ gaborPart E g ++ statsPart g

/-- `IrisBiometricEngine.extract_features`, lines 118–184: `none` for a null
or empty patch, otherwise the concatenation of the four sub-features divided
by `np.linalg.norm(·) + 1e-7`. -/
def extract_features (E : CVEnv) (iris : Option Grid) : Option (List ℝ) :=
  match iris with
  | none => none
  | some g =>
      if gridSize g = 0 then none
      else some ((rawFeat E g).map (fun x => x / (euclNorm (rawFeat E g) + 1 / 10000000)))

/-- `IrisBiometricEngine._calculate_quality`, lines 235–251:
`min(1.0, (laplacian.var() / 100 + region.std() / 50) / 2)`. -/
def calculateQuality (E : CVEnv) (g : Grid) : ℝ :=
  min 1 ((rvar (E.laplacian g) / 100 + natStd (gridFlat g) / 50) / 2)

end

/-- The dict returned by `create_template`: the fused feature array, the
averaged quality score, and the surviving frame count. -/
structure Template where
  template : List ℝ
  quality_score : ℝ
  num_frames : ℕ

noncomputable section

/-- `np.mean(vectors, axis=0)`: element-wise mean.  A ragged input makes
`np.mean` raise (caught by the caller), modelled as `none`. -/
def npMeanAxis0 (vs : List (List ℝ)) : Option (List ℝ) :=
  match vs with
  | [] => none
  | v0 :: rest =>
      if rest.all (fun v => v.length == v0.length) then
        some ((List.range v0.length).map
          (fun i => ((vs.map (fun v => v.getD i 0)).sum) / vs.length))
      else none

/-- The per-frame body of `create_template`'s loop: preprocess, detect,
extract; `none` when any stage fails, otherwise the surviving patch and its
feature vector. -/
def frameFeat (E : CVEnv) (f : String) : Option (Grid × List ℝ) :=
  match E.preprocess f with
  | none => none
  | some pre =>
      match detect_iris_region E pre with
      | none => none
      | some iris =>
          match extract_features E (some iris) with
          | none => none
          | some feat => some (iris, feat)

/-- `IrisBiometricEngine.create_template`, lines 186–233: collect surviving
feature vectors and quality scores, fail on zero survivors, otherwise
average. -/
def create_template (E : CVEnv) (frames : List String) : Option Template :=
  let survivors := frames.filterMap (frameFeat E)
  let fv := survivors.map (fun p => p.2)
  let qs := survivors.map (fun p => calculateQuality E p.1)
  if fv.length = 0 then none
  else
    match npMeanAxis0 fv with
    | none => none
    | some t => some ⟨t, rmean qs, fv.length⟩

end

/-- The dict returned by `match_templates`; `isMatch` models the `match`
key (a Lean keyword).  `error` is populated exactly on the failure paths. -/
structure MatchResult where
  isMatch : Prop
  confidence : ℝ
  distance : Option ℝ
  similarity : Option ℝ
  error : Option String

/-- An argument of `match_templates`: a numeric array, an encrypted base64
string, or `None`. -/
inductive TIn where
  | vec (v : List ℝ)
  | enc (s : String)
  | null

noncomputable section

/-- The decryption step at the top of `match_templates`: strings are
decrypted (`dec32` reinterprets a 32-bit pattern as its float32 value);
arrays pass through; `None` stays `none`. -/
def resolveT (C : BlockCipher) (dec32 : ℕ → ℝ) : TIn → Option (List ℝ)
  | TIn.vec v => some v
  | TIn.enc s => (decrypt_template C s).map (fun ws => ws.map dec32)
  | TIn.null => none

/-- Dot product of two equal-length vectors. -/
def dotL (u v : List ℝ) : ℝ := (List.zipWith (fun a b => a * b) u v).sum

/-- `IrisBiometricEngine.match_templates`, lines 307–349.  `similarity` is
`1 - scipy cosine distance`, `nd` the length-normalized Euclidean distance;
`match` is `nd < threshold`; a failed decrypt or a `None` input yields the
`'Decryption failed'` result, and a length mismatch models the broadcast
`ValueError` caught by the `except` branch (`error = str(e)`). -/
def match_templates (C : BlockCipher) (dec32 : ℕ → ℝ) (t1 t2 : TIn)
    (threshold : ℝ) : MatchResult :=
  match resolveT C dec32 t1, resolveT C dec32 t2 with
  | some u, some v =>
      if u.length = v.length then
        let similarity := 1 - (1 - dotL u v / (euclNorm u * euclNorm v))
        let nd := euclNorm (List.zipWith (fun a b => a - b) u v) / Real.sqrt u.length
        { isMatch := nd < threshold
          confidence := (similarity + (1 - nd)) / 2
          distance := some nd
          similarity := some similarity
          error := none }
      else
        { isMatch := False, confidence := 0, distance := none, similarity := none,
          error := some "operands could not be broadcast together" }
  | _, _ =>
      { isMatch := False, confidence := 0, distance := none, similarity := none,
        error := some "Decryption failed" }

end

/-- The dict returned by `check_liveness`. -/
structure LivenessResult where
  is_live : Prop
  reason : Option String
  quality_variance : Option ℝ
  brightness_variance : Option ℝ
  confidence : Option ℝ

/-- The surviving iris regions of a frame batch (frames that decode and
locate successfully), in order. -/
def processed (E : CVEnv) (frames : List String) : List Grid :=
  frames.filterMap (fun f => (E.preprocess f).bind (detect_iris_region E))

noncomputable section

/-- `IrisBiometricEngine.check_liveness`, lines 351–394: guard on fewer than
3 input frames, then on fewer than 3 surviving frames; otherwise the verdict
is `quality variance > 0.001 ∧ brightness variance > 1.0`, with the
confidence `min(1.0, (qv * 100 + bv / 10) / 2)`. -/
def check_liveness (E : CVEnv) (frames : List String) : LivenessResult :=
  if frames.length < 3 then
    ⟨False, some "Insufficient frames", none, none, none⟩
  else
    let ps := processed E frames
    let qs := ps.map (calculateQuality E)
    let bs := ps.map gridMean
    if qs.length < 3 then
      ⟨False, some "Failed to process frames", none, none, none⟩
    else
      ⟨rvar qs > 1 / 1000 ∧ rvar bs > 1, none, some (rvar qs), some (rvar bs),
        some (min 1 ((rvar qs * 100 + rvar bs / 10) / 2))⟩

end

theorem gridSize_pos_of_head {r : List ℕ} {t : List (List ℕ)} (h : 0 < r.length) :
    0 < gridSize (r :: t) := by
  simp only [gridSize, List.map_cons, List.sum_cons]
  omega

theorem gridSize_crop_pos (g : Grid) (w y1 y2 x1 x2 : ℕ)
    (hrect : ∀ row ∈ g, row.length = w)
    (hy : y1 < y2) (hy2 : y2 ≤ g.length) (hx : x1 < x2) (hx2 : x2 ≤ w) :
    0 < gridSize (cropG g y1 y2 x1 x2) := by
  have hlen : 0 < ((g.drop y1).take (y2 - y1)).length := by
    simp only [List.length_take, List.length_drop]
    omega
  cases hrows : (g.drop y1).take (y2 - y1) with
  | nil => rw [hrows] at hlen; simp at hlen
  | cons r t =>
      have hr : r ∈ g := by
        have h1 : r ∈ (g.drop y1).take (y2 - y1) := by rw [hrows]; simp
        exact List.mem_of_mem_drop (List.mem_of_mem_take h1)
      have hrw : r.length = w := hrect r hr
      show 0 < gridSize (((g.drop y1).take (y2 - y1)).map _)
      rw [hrows]
      apply gridSize_pos_of_head
      simp only [List.length_take, List.length_drop, hrw]
      omega

theorem gridSize_crop_zero_col (g : Grid) (y1 y2 x1 x2 : ℕ) (h : x2 ≤ x1) :
    gridSize (cropG g y1 y2 x1 x2) = 0 := by
  unfold gridSize cropG
  rw [List.map_map]
  apply List.sum_eq_zero
  intro n hn
  rcases List.mem_map.mp hn with ⟨row, _, rfl⟩
  simp only [Function.comp_apply, List.length_take, List.length_drop]
  omega

theorem gridSize_crop_zero_row (g : Grid) (y1 y2 x1 x2 : ℕ) (h : y2 ≤ y1) :
    gridSize (cropG g y1 y2 x1 x2) = 0 := by
  unfold cropG
  rw [show y2 - y1 = 0 by omega, List.take_zero]
  rfl

/-- C8 (amended): behaviour of the region locator for a rectangular image
(all rows of width `w`), under the `cv2.resize` output-shape contract and
the `np.uint16` value contract on the rounded circle (`x, y, r < 2^16`).
(i) For a found circle whose expanded radius `r2 = int(1.3*r)` does not
exceed the center coordinates (`r2 ≤ x`, `r2 ≤ y`, so the unsigned
subtraction does not wrap) and whose additions stay in 16 bits, the result
is the square crop around the circle, clipped to the image on the right and
bottom, resized to 128×128.  (ii) When `r2` exceeds `x` (with
`w + r2 ≤ 2^16`) or exceeds `y` (with `h + r2 ≤ 2^16`), the uint16
subtraction wraps, the circle crop is empty, and the result is the
center-crop fallback (for an image at least 2×2) — the claimed clip-to-zero
never happens.  (iii) With no circle found, the result is the middle
50%×50% center crop resized to 128×128 (image at least 2×2).
(iv) `none` is returned only when the fallback crop region is empty, and
(v) every non-null result is exactly 128×128. -/
theorem detect_iris_region_spec (E : CVEnv) (g : Grid) (w : ℕ)
    (hrect : ∀ row ∈ g, row.length = w)
    (hres : ∀ p a b, (E.resize p a b).length = b ∧ ∀ row ∈ E.resize p a b, row.length = a) :
    (∀ x y r, E.houghFirst (E.blur g) = some (x, y, r) → x < w → y < g.length →
      1 ≤ r → r < 65536 → 13 * r / 10 ≤ x → 13 * r / 10 ≤ y →
      x + 13 * r / 10 < 65536 → y + 13 * r / 10 < 65536 →
      detect_iris_region E g = some (E.resize (cropG g (y - 13 * r / 10)
        (min g.length (y + 13 * r / 10)) (x - 13 * r / 10)
        (min w (x + 13 * r / 10))) 128 128)) ∧
    (∀ x y r, E.houghFirst (E.blur g) = some (x, y, r) → x < 65536 → y < 65536 →
      r < 65536 → 13 * r / 10 < 65536 →
      ((x < 13 * r / 10 ∧ w + 13 * r / 10 ≤ 65536) ∨
       (y < 13 * r / 10 ∧ g.length + 13 * r / 10 ≤ 65536)) →
      2 ≤ g.length → 2 ≤ w →
      detect_iris_region E g = some (E.resize (cropG g (g.length / 4) (3 * g.length / 4)
        (w / 4) (3 * w / 4)) 128 128)) ∧
    (E.houghFirst (E.blur g) = none → 2 ≤ g.length → 2 ≤ w →
      detect_iris_region E g = some (E.resize (cropG g (g.length / 4) (3 * g.length / 4)
        (w / 4) (3 * w / 4)) 128 128)) ∧
    (detect_iris_region E g = none →
      gridSize (cropG g (g.length / 4) (3 * g.length / 4) (w / 4) (3 * w / 4)) = 0) ∧
    (∀ out, detect_iris_region E g = some out →
      out.length = 128 ∧ ∀ row ∈ out, row.length = 128) := by
  refine ⟨?_, ?_, ?_, ?_, ?_⟩
  · -- (i) circle found, no wraparound
    intro x y r hcirc hx hy hr hr16 hrx hry hxadd hyadd
    have hgne : g ≠ [] := by
      intro hnil
      rw [hnil] at hy
      simp at hy
    have hgw : gridW g = w := by
      cases g with
      | nil => exact absurd rfl hgne
      | cons row t => exact hrect row (by simp)
    have hr2 : 1 ≤ 13 * r / 10 := by omega
    have hpos : 0 < gridSize (cropG g (y - 13 * r / 10) (min g.length (y + 13 * r / 10))
        (x - 13 * r / 10) (min w (x + 13 * r / 10))) := by
      apply gridSize_crop_pos g w _ _ _ _ hrect
      · omega
      · omega
      · omega
      · omega
    have hxm : x % 65536 = x := Nat.mod_eq_of_lt (by omega)
    have hym : y % 65536 = y := Nat.mod_eq_of_lt (by omega)
    have hrm : r % 65536 = r := Nat.mod_eq_of_lt hr16
    rw [detect_iris_region, hcirc]
    dsimp only
    rw [hgw, hxm, hym, hrm]
    have hr2m : 13 * r / 10 % 65536 = 13 * r / 10 := Nat.mod_eq_of_lt (by omega)
    rw [hr2m]
    have hx1 : (x + 65536 - 13 * r / 10) % 65536 = x - 13 * r / 10 := by omega
    have hy1 : (y + 65536 - 13 * r / 10) % 65536 = y - 13 * r / 10 := by omega
    have hx2 : (x + 13 * r / 10) % 65536 = x + 13 * r / 10 := Nat.mod_eq_of_lt hxadd
    have hy2 : (y + 13 * r / 10) % 65536 = y + 13 * r / 10 := Nat.mod_eq_of_lt hyadd
    rw [hx1, hy1, hx2, hy2, Nat.zero_max, Nat.zero_max]
    rw [if_pos hpos]
  · -- (ii) circle found near the edge: the uint16 subtraction wraps
    intro x y r hcirc hx16 hy16 hr16 hr216 hwrap hh hw2
    have hgne : g ≠ [] := by
      intro hnil
      rw [hnil] at hh
      simp at hh
    have hgw : gridW g = w := by
      cases g with
      | nil => exact absurd rfl hgne
      | cons row t => exact hrect row (by simp)
    have hxm : x % 65536 = x := Nat.mod_eq_of_lt hx16
    have hym : y % 65536 = y := Nat.mod_eq_of_lt hy16
    have hrm : r % 65536 = r := Nat.mod_eq_of_lt hr16
    have hr2m : 13 * r / 10 % 65536 = 13 * r / 10 := Nat.mod_eq_of_lt hr216
    rw [detect_iris_region, hcirc]
    dsimp only
    rw [hgw, hxm, hym, hrm, hr2m]
    have hzero : gridSize (cropG g (max 0 ((y + 65536 - 13 * r / 10) % 65536))
        (min g.length ((y + 13 * r / 10) % 65536))
        (max 0 ((x + 65536 - 13 * r / 10) % 65536))
        (min w ((x + 13 * r / 10) % 65536))) = 0 := by
      rcases hwrap with ⟨hxlt, hwle⟩ | ⟨hylt, hhle⟩
      · apply gridSize_crop_zero_col
        omega
      · apply gridSize_crop_zero_row
        omega
    rw [if_neg (by rw [hzero]; decide)]
    have hpos : 0 < gridSize (cropG g (g.length / 4) (3 * g.length / 4)
        (w / 4) (3 * w / 4)) := by
      apply gridSize_crop_pos g w _ _ _ _ hrect
      · omega
      · omega
      · omega
      · omega
    rw [if_pos hpos]
  · -- (iii) no circle: center-crop fallback
    intro hnone hh hw
    have hgne : g ≠ [] := by
      intro hnil
      rw [hnil] at hh
      simp at hh
    have hgw : gridW g = w := by
      cases g with
      | nil => exact absurd rfl hgne
      | cons row t => exact hrect row (by simp)
    have hpos : 0 < gridSize (cropG g (g.length / 4) (3 * g.length / 4)
        (w / 4) (3 * w / 4)) := by
      apply gridSize_crop_pos g w _ _ _ _ hrect
      · omega
      · omega
      · omega
      · omega
    rw [detect_iris_region, hnone]
    dsimp only
    rw [hgw, if_pos hpos]
  · -- (iv) null only on an empty fallback crop
    intro hnone
    rw [detect_iris_region] at hnone
    by_cases hgnil : g = []
    · subst hgnil
      simp [cropG, gridSize]
    · have hgw : gridW g = w := by
        cases g with
        | nil => exact absurd rfl hgnil
        | cons row t => exact hrect row (by simp)
      rw [hgw] at hnone
      cases hcirc : E.houghFirst (E.blur g) with
      | none =>
          rw [hcirc] at hnone
          dsimp only at hnone
          split at hnone
          · exact absurd hnone (by simp)
          · rename_i hcond
            omega
      | some c =>
          obtain ⟨x, yr⟩ := c
          obtain ⟨y, r⟩ := yr
          rw [hcirc] at hnone
          dsimp only at hnone
          split at hnone
          · exact absurd hnone (by simp)
          · split at hnone
            · exact absurd hnone (by simp)
            · rename_i hcond
              omega
  · -- (v) shape of every non-null result
    intro out hout
    rw [detect_iris_region] at hout
    cases hcirc : E.houghFirst (E.blur g) with
    | none =>
        rw [hcirc] at hout
        dsimp only at hout
        split at hout
        · obtain rfl : E.resize _ 128 128 = out := Option.some_injective _ hout
          exact ⟨(hres _ 128 128).1, (hres _ 128 128).2⟩
        · exact absurd hout (by simp)
    | some c =>
        obtain ⟨x, yr⟩ := c
        obtain ⟨y, r⟩ := yr
        rw [hcirc] at hout
        dsimp only at hout
        split at hout
        · obtain rfl : E.resize _ 128 128 = out := Option.some_injective _ hout
          exact ⟨(hres _ 128 128).1, (hres _ 128 128).2⟩
        · split at hout
          · obtain rfl : E.resize _ 128 128 = out := Option.some_injective _ hout
            exact ⟨(hres _ 128 128).1, (hres _ 128 128).2⟩
          · exact absurd hout (by simp)

/-- A concrete library environment for the wraparound scenario: the circle
search reports center `(0, 2)` with radius 10; resize is the identity so
the returned grid identifies which crop was taken. -/
def envW : CVEnv :=
  ⟨fun _ => none, fun gr => gr, fun _ => some (0, 2, 10), fun p _ _ => p,
   fun _ => [], fun _ => [], fun _ _ => [], fun _ => []⟩

/-- An 8×8 all-black image. -/
def g8 : Grid := List.replicate 8 (List.replicate 8 0)

/-- Counterexample for C8 as stated: a circle is found at `(0, 2, 10)` on
an 8×8 image, but `int(1.3*10) = 13` exceeds both center coordinates, the
`np.uint16` subtraction wraps, the circle crop is empty, and the code
returns the middle 50%×50% center crop — not the claimed
bounds-clipped circle crop (which would be the whole image here). -/
theorem detect_iris_region_spec_cex :
    envW.houghFirst (envW.blur g8) = some (0, 2, 10) ∧
    detect_iris_region envW g8 = some (cropG g8 2 6 2 6) ∧
    cropG g8 2 6 2 6 ≠ cropG g8 (2 - 13 * 10 / 10) (min g8.length (2 + 13 * 10 / 10))
      (0 - 13 * 10 / 10) (min 8 (0 + 13 * 10 / 10)) := by
  refine ⟨rfl, ?_, by decide⟩
  decide

theorem euclNorm_nonneg (l : List ℝ) : 0 ≤ euclNorm l := Real.sqrt_nonneg _

theorem sum_sq_nonneg (l : List ℝ) : 0 ≤ (l.map (fun x => x ^ 2)).sum := by
  induction l with
  | nil => simp
  | cons x t ih =>
      simp only [List.map_cons, List.sum_cons]
      positivity

theorem euclNorm_map_div (l : List ℝ) (c : ℝ) (hc : 0 < c) :
    euclNorm (l.map (fun x => x / c)) = euclNorm l / c := by
  unfold euclNorm
  have hmap : (l.map (fun x => x / c)).map (fun x => x ^ 2) =
      (l.map (fun x => x ^ 2)).map (fun t => t * (c ^ 2)⁻¹) := by
    rw [List.map_map, List.map_map]
    apply List.map_congr_left
    intro a _
    simp only [Function.comp_apply]
    rw [div_pow, div_eq_mul_inv]
  rw [hmap, List.sum_map_mul_right, List.map_id']
  rw [Real.sqrt_mul (sum_sq_nonneg l), Real.sqrt_inv]
  rw [Real.sqrt_sq (le_of_lt hc)]
  rw [div_eq_mul_inv]

theorem member_le_euclNorm {l : List ℝ} {x : ℝ} (hx : x ∈ l) (hx0 : 0 ≤ x) :
    x ≤ euclNorm l := by
  have hsq : x ^ 2 ∈ l.map (fun t => t ^ 2) := List.mem_map_of_mem _ hx
  have hle : x ^ 2 ≤ (l.map (fun t => t ^ 2)).sum := by
    apply List.single_le_sum _ _ hsq
    intro t ht
    rcases List.mem_map.mp ht with ⟨u, _, rfl⟩
    positivity
  calc x = Real.sqrt (x ^ 2) := (Real.sqrt_sq hx0).symm
    _ ≤ euclNorm l := Real.sqrt_le_sqrt hle

theorem sum_map_add_distrib {α : Type} (l : List α) (f g : α → ℕ) :
    (l.map (fun i => f i + g i)).sum = (l.map f).sum + (l.map g).sum := by
  induction l with
  | nil => rfl
  | cons a t ih =>
      simp only [List.map_cons, List.sum_cons, ih]
      omega

theorem binCount_cons (d : ℕ) (cs : List ℕ) (i : ℕ) :
    binCount (d :: cs) i = binCount cs i +
      (if i = 31 then (if 31 ≤ d ∧ d ≤ 32 then 1 else 0) else (if d = i then 1 else 0)) := by
  unfold binCount
  by_cases h31 : i = 31
  · subst h31
    rw [if_pos rfl, if_pos rfl, List.countP_cons]
    by_cases hd : 31 ≤ d ∧ d ≤ 32
    · simp [hd]
    · simp [hd]
  · rw [if_neg h31, if_neg h31, List.count_cons]
    by_cases hd : d = i
    · simp [hd, h31]
    · simp [hd, h31]

theorem singleBin_sum : ∀ d < 32,
    ((List.range 32).map (fun i => if i = 31 then (if 31 ≤ d ∧ d ≤ 32 then 1 else 0)
      else (if d = i then 1 else 0))).sum = 1 := by
  decide

theorem histCounts_sum : ∀ codes : List ℕ, (∀ c ∈ codes, c < 32) →
    (histCounts codes).sum = codes.length := by
  intro codes
  induction codes with
  | nil => intro _; decide
  | cons d cs ih =>
      intro h
      have hd : d < 32 := h d (by simp)
      unfold histCounts
      rw [List.map_congr_left (fun i _ => binCount_cons d cs i)]
      rw [sum_map_add_distrib]
      rw [show ((List.range 32).map (fun i => binCount cs i)) = histCounts cs from rfl]
      rw [ih (fun c hc => h c (by simp [hc])), singleBin_sum d hd]
      simp

theorem sum_le_card_mul : ∀ (l : List ℕ) (b : ℕ), (∀ x ∈ l, x ≤ b) →
    l.sum ≤ l.length * b := by
  intro l
  induction l with
  | nil => intro b _; simp
  | cons a t ih =>
      intro b h
      have ha : a ≤ b := h a (by simp)
      have ht := ih b (fun x hx => h x (by simp [hx]))
      simp only [List.sum_cons, List.length_cons]
      calc a + t.sum ≤ b + t.length * b := by omega
        _ = (t.length + 1) * b := by ring

theorem exists_bin_ge {codes : List ℕ} (hlen : codes.length = 16384)
    (h : ∀ c ∈ codes, c < 32) : ∃ cnt ∈ histCounts codes, 512 ≤ cnt := by
  by_contra hcon
  push_neg at hcon
  have hbound : (histCounts codes).sum ≤ (histCounts codes).length * 511 :=
    sum_le_card_mul _ 511 (fun x hx => by have := hcon x hx; omega)
  have hcard : (histCounts codes).length = 32 := by simp [histCounts]
  have hsum := histCounts_sum codes h
  omega

/-- C2: for every 128×128 patch, under the library shape contracts (uniform
LBP codes are integer-valued below 32, one per pixel; `skimage.hog` yields
512 values on a 128×128 patch with these parameters), `extract_features`
returns a feature vector that is the concatenation of the 32 normalized LBP
bins, the first 64 HOG values, the 8 Gabor statistics and the 5 intensity
statistics, in that order — 109 elements — scaled by the L2 normalizer, and
its Euclidean norm lies within `10⁻⁵` of 1. -/
theorem extract_features_spec (E : CVEnv) (g : Grid)
    (hg : g.length = 128 ∧ ∀ row ∈ g, row.length = 128)
    (hlbp_len : (E.lbpCodes g).length = 16384)
    (hlbp_rng : ∀ c ∈ E.lbpCodes g, c < 32)
    (hhog : (E.hogVec g).length = 512) :
    ∃ out, extract_features E (some g) = some out ∧
      out = (lbpHistPart E g ++ hogPart E g ++ gaborPart E g ++ statsPart g).map
        (fun t => t / (euclNorm (rawFeat E g) + 1 / 10000000)) ∧
      (lbpHistPart E g).length = 32 ∧ (hogPart E g).length = 64 ∧
      (gaborPart E g).length = 8 ∧ (statsPart g).length = 5 ∧
      out.length = 109 ∧
      1 - 1 / 100000 ≤ euclNorm out ∧ euclNorm out ≤ 1 := by
  obtain ⟨hg1, hg2⟩ := hg
  have hpos : 0 < gridSize g := by
    cases g with
    | nil => simp at hg1
    | cons r t =>
        apply gridSize_pos_of_head
        rw [hg2 r (by simp)]
        norm_num
  have hne2 : ¬ gridSize g = 0 := by omega
  have hex : extract_features E (some g) = some ((rawFeat E g).map
      (fun x => x / (euclNorm (rawFeat E g) + 1 / 10000000))) := by
    rw [show extract_features E (some g) = if gridSize g = 0 then none else
      some ((rawFeat E g).map (fun x => x / (euclNorm (rawFeat E g) + 1 / 10000000)))
      from rfl, if_neg hne2]
  have hN0 : 0 ≤ euclNorm (rawFeat E g) := euclNorm_nonneg _
  have heps : (0 : ℝ) < 1 / 10000000 := by norm_num
  have hden : (0 : ℝ) < euclNorm (rawFeat E g) + 1 / 10000000 := by linarith
  obtain ⟨cnt, hcnt_mem, hcnt_ge⟩ := exists_bin_ge hlbp_len hlbp_rng
  have hsum : (histCounts (E.lbpCodes g)).sum = 16384 := by
    rw [histCounts_sum _ hlbp_rng, hlbp_len]
  have hentry_mem : ((cnt : ℝ) / (((histCounts (E.lbpCodes g)).sum : ℕ) + 1 / 10000000)) ∈
      lbpHistPart E g := by
    unfold lbpHistPart
    exact List.mem_map.mpr ⟨cnt, hcnt_mem, rfl⟩
  have hentry_raw : ((cnt : ℝ) / (((histCounts (E.lbpCodes g)).sum : ℕ) + 1 / 10000000)) ∈
      rawFeat E g := by
    unfold rawFeat
    exact List.mem_append.mpr (Or.inl (List.mem_append.mpr (Or.inl
      (List.mem_append.mpr (Or.inl hentry_mem)))))
  have hcnt_cast : (512 : ℝ) ≤ (cnt : ℝ) := by exact_mod_cast hcnt_ge
  have hsum_nonneg : (0 : ℝ) ≤ (((histCounts (E.lbpCodes g)).sum : ℕ) : ℝ) :=
    Nat.cast_nonneg _
  have hentry_nonneg : (0 : ℝ) ≤ (cnt : ℝ) /
      (((histCounts (E.lbpCodes g)).sum : ℕ) + 1 / 10000000) :=
    div_nonneg (Nat.cast_nonneg _) (by linarith)
  have hentry_ge : (512 : ℝ) / 16385 ≤
      (cnt : ℝ) / (((histCounts (E.lbpCodes g)).sum : ℕ) + 1 / 10000000) := by
    rw [hsum]
    rw [div_le_div_iff (by norm_num) (by norm_num)]
    push_cast
    linarith only [hcnt_cast]
  have hNge : (512 : ℝ) / 16385 ≤ euclNorm (rawFeat E g) :=
    le_trans hentry_ge (member_le_euclNorm hentry_raw hentry_nonneg)
  have hnorm : euclNorm ((rawFeat E g).map
      (fun x => x / (euclNorm (rawFeat E g) + 1 / 10000000))) =
      euclNorm (rawFeat E g) / (euclNorm (rawFeat E g) + 1 / 10000000) :=
    euclNorm_map_div _ _ hden
  have hA : (lbpHistPart E g).length = 32 := by
    simp [lbpHistPart, histCounts]
  have hB : (hogPart E g).length = 64 := by
    unfold hogPart
    rw [List.length_take, hhog]
    decide
  have hGa : (gaborPart E g).length = 8 := rfl
  have hD : (statsPart g).length = 5 := rfl
  refine ⟨_, hex, rfl, hA, hB, hGa, hD, ?_, ?_, ?_⟩
  · simp only [List.length_map]
    unfold rawFeat
    simp only [List.length_append, hA, hB, hGa, hD]
  · rw [hnorm, le_div_iff hden]
    linarith only [hNge, heps]
  · rw [hnorm, div_le_one hden]
    linarith only [heps]

/-- A concrete resize stub satisfying the `cv2.resize` shape contract. -/
def stubResize : Grid → ℕ → ℕ → Grid := fun _ a b => List.replicate b (List.replicate a 0)

/-- A 128×128 all-black patch. -/
def g128 : Grid := List.replicate 128 (List.replicate 128 0)

/-- A concrete library environment for witnesses: every frame decodes to a
4×4 image, the circle search finds `(1, 1, 1)`, and the texture primitives
return constant outputs of the documented shapes. -/
noncomputable def envA : CVEnv :=
  ⟨fun _ => some (List.replicate 4 (List.replicate 4 0)),
   fun gr => gr,
   fun _ => some (1, 1, 1),
   stubResize,
   fun _ => List.replicate 16384 0,
   fun _ => List.replicate 512 (0 : ℝ),
   fun _ _ => List.replicate 16384 0,
   fun _ => [(0 : ℝ)]⟩

theorem stubResize_contract (E : CVEnv) (hE : E.resize = stubResize) :
    ∀ p a b, (E.resize p a b).length = b ∧ ∀ row ∈ E.resize p a b, row.length = a := by
  intro p a b
  rw [hE]
  constructor
  · simp [stubResize]
  · intro row hrow
    have := List.eq_of_mem_replicate hrow
    simp [this]

/-- Witness for C8 at a concrete 4×4 image with circle `(1, 1, 1)`. -/
theorem detect_iris_region_spec_witness :
    (∀ row ∈ List.replicate 4 (List.replicate 4 (0 : ℕ)), row.length = 4) ∧
    envA.houghFirst (envA.blur (List.replicate 4 (List.replicate 4 0))) = some (1, 1, 1) ∧
    detect_iris_region envA (List.replicate 4 (List.replicate 4 0)) =
      some (envA.resize (cropG (List.replicate 4 (List.replicate 4 0)) 0 2 0 2) 128 128) := by
  refine ⟨by decide, rfl, ?_⟩
  have h := (detect_iris_region_spec envA (List.replicate 4 (List.replicate 4 0)) 4
    (by decide) (stubResize_contract envA rfl)).1 1 1 1 rfl (by decide) (by decide)
    (by decide) (by decide) (by decide) (by decide) (by decide) (by decide)
  exact h

/-- Witness for C2 at the all-black 128×128 patch and the stub library. -/
theorem extract_features_spec_witness :
    (g128.length = 128 ∧ ∀ row ∈ g128, row.length = 128) ∧
    (envA.lbpCodes g128).length = 16384 ∧ (∀ c ∈ envA.lbpCodes g128, c < 32) ∧
    (envA.hogVec g128).length = 512 ∧
    ∃ out, extract_features envA (some g128) = some out ∧ out.length = 109 ∧
      1 - 1 / 100000 ≤ euclNorm out ∧ euclNorm out ≤ 1 := by
  have h1 : g128.length = 128 ∧ ∀ row ∈ g128, row.length = 128 := by
    constructor
    · rfl
    · intro row hrow
      have := List.eq_of_mem_replicate hrow
      simp [this]
  have e2 : envA.lbpCodes g128 = List.replicate 16384 0 := rfl
  have h2 : (envA.lbpCodes g128).length = 16384 := by
    rw [e2, List.length_replicate]
  have h3 : ∀ c ∈ envA.lbpCodes g128, c < 32 := by
    rw [e2]
    intro c hc
    have : c = 0 := List.eq_of_mem_replicate hc
    omega
  have e4 : envA.hogVec g128 = List.replicate 512 (0 : ℝ) := rfl
  have h4 : (envA.hogVec g128).length = 512 := by
    rw [e4, List.length_replicate]
  obtain ⟨out, hout, _, _, _, _, _, hlen, hlb, hub⟩ :=
    extract_features_spec envA g128 h1 h2 h3 h4
  exact ⟨h1, h2, h3, h4, out, hout, hlen, hlb, hub⟩

/-- C3: `create_template` returns `none` exactly when no frame survives
decode→locate→extract; otherwise the template is the element-wise arithmetic
mean of the surviving feature vectors, the quality score is the arithmetic
mean of the surviving quality scores, and `num_frames` is the survivor
count.  The hypothesis is the pipeline invariant that every surviving
feature vector has the fixed length `L` (109 in the pipeline), under which
`np.mean(..., axis=0)` is defined. -/
theorem create_template_spec (E : CVEnv) (frames : List String) (L : ℕ)
    (hlen : ∀ f p, frameFeat E f = some p → p.2.length = L) :
    (create_template E frames = none ↔ frames.filterMap (frameFeat E) = []) ∧
    ∀ T, create_template E frames = some T →
      T.num_frames = (frames.filterMap (frameFeat E)).length ∧
      T.quality_score = ((frames.filterMap (frameFeat E)).map
        (fun p => calculateQuality E p.1)).sum /
        ((frames.filterMap (frameFeat E)).length : ℝ) ∧
      T.template.length = L ∧
      (∀ i, i < L → T.template.getD i 0 =
        ((frames.filterMap (frameFeat E)).map (fun p => p.2.getD i 0)).sum /
        ((frames.filterMap (frameFeat E)).length : ℝ)) := by
  have hall : ∀ q ∈ frames.filterMap (frameFeat E), (q.2 : List ℝ).length = L := by
    intro q hq
    rcases List.mem_filterMap.mp hq with ⟨f, _, hf⟩
    exact hlen f q hf
  cases hs : frames.filterMap (frameFeat E) with
  | nil =>
      have hnone : create_template E frames = none := by
        unfold create_template
        rw [hs]
        rfl
      refine ⟨by simp [hnone, hs], ?_⟩
      intro T hT
      rw [hnone] at hT
      exact absurd hT (by simp)
  | cons p rest =>
      rw [hs] at hall
      have hp2 : p.2.length = L := hall p (by simp)
      have hmean : npMeanAxis0 ((p :: rest).map (fun q => q.2)) =
          some ((List.range p.2.length).map
            (fun i => ((((p :: rest).map (fun q => q.2)).map (fun v => v.getD i 0)).sum) /
              (((p :: rest).map (fun q => q.2)).length : ℝ))) := by
        unfold npMeanAxis0
        simp only [List.map_cons]
        rw [if_pos]
        apply List.all_eq_true.mpr
        intro v hv
        rcases List.mem_map.mp hv with ⟨q, hq, rfl⟩
        have : q.2.length = L := hall q (by simp [hq])
        rw [this, hp2]
        simp
      have hsome : create_template E frames = some
          ⟨(List.range p.2.length).map
            (fun i => ((((p :: rest).map (fun q => q.2)).map (fun v => v.getD i 0)).sum) /
              (((p :: rest).map (fun q => q.2)).length : ℝ)),
           rmean ((p :: rest).map (fun q => calculateQuality E q.1)),
           ((p :: rest).map (fun q => q.2)).length⟩ := by
        unfold create_template
        rw [hs]
        dsimp only
        rw [if_neg (by simp)]
        rw [hmean]
      refine ⟨⟨?_, ?_⟩, ?_⟩
      · intro h
        rw [hsome] at h
        exact absurd h (by simp)
      · intro h
        exact absurd h (by simp)
      intro T hT
      rw [hsome] at hT
      obtain rfl : _ = T := Option.some_injective _ hT
      refine ⟨by simp, ?_, ?_, ?_⟩
      · show rmean ((p :: rest).map (fun q => calculateQuality E q.1)) = _
        unfold rmean
        rw [List.length_map]
      · show ((List.range p.2.length).map _).length = L
        rw [List.length_map, List.length_range, hp2]
      · intro i hi
        show ((List.range p.2.length).map
            (fun i => ((((p :: rest).map (fun q => q.2)).map (fun v => v.getD i 0)).sum) /
              (((p :: rest).map (fun q => q.2)).length : ℝ))).getD i 0 = _
        rw [List.getD_eq_getElem?_getD, List.getElem?_map,
          List.getElem?_range (by omega : i < p.2.length)]
        dsimp only [Option.map_some', Option.getD_some]
        rw [List.map_map, List.length_map]
        rfl

/-- Witness for C3: with the stub library every frame survives with a
109-element feature vector, and the zero-survivor criterion is exercised on
a one-frame batch. -/
theorem create_template_spec_witness :
    (∀ f p, frameFeat envA f = some p → (p.2 : List ℝ).length = 109) ∧
    (create_template envA ["a"] = none ↔ List.filterMap (frameFeat envA) ["a"] = []) := by
  have hdet4 := (detect_iris_region_spec envA (List.replicate 4 (List.replicate 4 0)) 4
    (by decide) (stubResize_contract envA rfl)).1 1 1 1 rfl (by decide) (by decide)
    (by decide) (by decide) (by decide) (by decide) (by decide) (by decide)
  have hdet : detect_iris_region envA (List.replicate 4 (List.replicate 4 0)) =
      some g128 := by
    rw [hdet4]
    rfl
  have h1 : g128.length = 128 ∧ ∀ row ∈ g128, row.length = 128 := by
    refine ⟨rfl, ?_⟩
    intro row hrow
    rw [List.eq_of_mem_replicate hrow]
    rfl
  have h2 : (envA.lbpCodes g128).length = 16384 := by
    rw [show envA.lbpCodes g128 = List.replicate 16384 0 from rfl, List.length_replicate]
  have h3 : ∀ c ∈ envA.lbpCodes g128, c < 32 := by
    intro c hc
    rw [List.eq_of_mem_replicate hc]
    omega
  have h4 : (envA.hogVec g128).length = 512 := by
    rw [show envA.hogVec g128 = List.replicate 512 (0 : ℝ) from rfl, List.length_replicate]
  obtain ⟨out, hout, _, _, _, _, _, hlen109, _, _⟩ :=
    extract_features_spec envA g128 h1 h2 h3 h4
  have hff : ∀ f, frameFeat envA f = some (g128, out) := by
    intro f
    unfold frameFeat
    rw [show envA.preprocess f = some (List.replicate 4 (List.replicate 4 0)) from rfl]
    dsimp only
    rw [hdet]
    dsimp only
    rw [hout]
  have hL : ∀ f p, frameFeat envA f = some p → (p.2 : List ℝ).length = 109 := by
    intro f p hp
    rw [hff f] at hp
    obtain rfl : (g128, out) = p := Option.some_injective _ hp
    exact hlen109
  exact ⟨hL, (create_template_spec envA ["a"] 109 hL).1⟩

/-- C4: `match_templates` never raises — it is total and always returns a
structured record — and on every failure (a failed decryption, a `None`
input, or a dimension mismatch between the two templates) the record has
`match = false`, `confidence = 0.0`, and a non-empty error string. -/
theorem match_templates_fail_spec (C : BlockCipher) (dec32 : ℕ → ℝ) (t1 t2 : TIn)
    (threshold : ℝ) :
    (resolveT C dec32 t1 = none ∨ resolveT C dec32 t2 = none →
      match_templates C dec32 t1 t2 threshold =
        ⟨False, 0, none, none, some "Decryption failed"⟩) ∧
    (∀ u v, resolveT C dec32 t1 = some u → resolveT C dec32 t2 = some v →
      u.length ≠ v.length →
      match_templates C dec32 t1 t2 threshold =
        ⟨False, 0, none, none, some "operands could not be broadcast together"⟩) ∧
    (∀ e, (match_templates C dec32 t1 t2 threshold).error = some e →
      ¬ (match_templates C dec32 t1 t2 threshold).isMatch ∧
      (match_templates C dec32 t1 t2 threshold).confidence = 0 ∧ e ≠ "") := by
  have hfail : resolveT C dec32 t1 = none ∨ resolveT C dec32 t2 = none →
      match_templates C dec32 t1 t2 threshold =
        ⟨False, 0, none, none, some "Decryption failed"⟩ := by
    intro h
    unfold match_templates
    rcases h with h | h
    · cases h2 : resolveT C dec32 t2 <;> (rw [h]; try rfl)
    · cases h1 : resolveT C dec32 t1 <;> (rw [h]; try rfl)
  have hmm : ∀ u v, resolveT C dec32 t1 = some u → resolveT C dec32 t2 = some v →
      u.length ≠ v.length →
      match_templates C dec32 t1 t2 threshold =
        ⟨False, 0, none, none, some "operands could not be broadcast together"⟩ := by
    intro u v hu hv hne
    unfold match_templates
    rw [hu, hv]
    dsimp only
    rw [if_neg hne]
  have hok : ∀ u v, resolveT C dec32 t1 = some u → resolveT C dec32 t2 = some v →
      u.length = v.length →
      (match_templates C dec32 t1 t2 threshold).error = none := by
    intro u v hu hv hlen
    unfold match_templates
    rw [hu, hv]
    dsimp only
    rw [if_pos hlen]
  refine ⟨hfail, hmm, ?_⟩
  intro e he
  cases h1 : resolveT C dec32 t1 with
  | none =>
      rw [hfail (Or.inl h1)] at he ⊢
      refine ⟨fun h => h, rfl, ?_⟩
      obtain rfl : "Decryption failed" = e := Option.some_injective _ he
      decide
  | some u =>
      cases h2 : resolveT C dec32 t2 with
      | none =>
          rw [hfail (Or.inr h2)] at he ⊢
          refine ⟨fun h => h, rfl, ?_⟩
          obtain rfl : "Decryption failed" = e := Option.some_injective _ he
          decide
      | some v =>
          by_cases hlen : u.length = v.length
          · rw [hok u v h1 h2 hlen] at he
            exact absurd he (by simp)
          · rw [hmm u v h1 h2 hlen] at he ⊢
            refine ⟨fun h => h, rfl, ?_⟩
            obtain rfl : "operands could not be broadcast together" = e :=
              Option.some_injective _ he
            decide

/-- Witness for C4 at two `None` inputs. -/
theorem match_templates_fail_spec_witness :
    resolveT idCipher (fun _ => (0 : ℝ)) TIn.null = none ∧
    match_templates idCipher (fun _ => (0 : ℝ)) TIn.null TIn.null (15 / 100) =
      ⟨False, 0, none, none, some "Decryption failed"⟩ :=
  ⟨rfl, (match_templates_fail_spec idCipher (fun _ => (0 : ℝ)) TIn.null TIn.null
    (15 / 100)).1 (Or.inl rfl)⟩

theorem zipWith_mul_self (l : List ℝ) :
    List.zipWith (fun a b => a * b) l l = l.map (fun x => x ^ 2) := by
  induction l with
  | nil => rfl
  | cons x t ih =>
      simp only [List.zipWith_cons_cons, List.map_cons, ih]
      rw [sq]

theorem zipWith_sub_self (l : List ℝ) :
    List.zipWith (fun a b => a - b) l l = List.replicate l.length (0 : ℝ) := by
  induction l with
  | nil => rfl
  | cons x t ih =>
      simp only [List.zipWith_cons_cons, List.length_cons, List.replicate_succ, ih]
      rw [sub_self]

theorem euclNorm_replicate_zero (n : ℕ) : euclNorm (List.replicate n (0 : ℝ)) = 0 := by
  unfold euclNorm
  rw [List.map_replicate]
  rw [show ((0 : ℝ) ^ 2) = 0 by norm_num]
  rw [List.sum_replicate]
  simp

/-- C5: matching any valid (non-null, non-zero) template against itself at
the default threshold 0.15 yields similarity exactly 1, normalized distance
exactly 0, and a positive match verdict. -/
theorem match_templates_self (C : BlockCipher) (dec32 : ℕ → ℝ) (T : List ℝ)
    (hT : ∃ x ∈ T, x ≠ 0) :
    (match_templates C dec32 (TIn.vec T) (TIn.vec T) (15 / 100)).similarity = some 1 ∧
    (match_templates C dec32 (TIn.vec T) (TIn.vec T) (15 / 100)).distance = some 0 ∧
    (match_templates C dec32 (TIn.vec T) (TIn.vec T) (15 / 100)).isMatch := by
  obtain ⟨x, hxmem, hx0⟩ := hT
  have hS : (0 : ℝ) < (T.map (fun t => t ^ 2)).sum := by
    have h1 : x ^ 2 ≤ (T.map (fun t => t ^ 2)).sum := by
      apply List.single_le_sum _ _ (List.mem_map_of_mem _ hxmem)
      intro t ht
      rcases List.mem_map.mp ht with ⟨u, _, rfl⟩
      positivity
    have h2 : (0 : ℝ) < x ^ 2 := by positivity
    linarith
  have hdot : dotL T T = (T.map (fun t => t ^ 2)).sum := by
    unfold dotL
    rw [zipWith_mul_self]
  have hnn : euclNorm T * euclNorm T = (T.map (fun t => t ^ 2)).sum :=
    Real.mul_self_sqrt (sum_sq_nonneg T)
  have hsim : 1 - (1 - dotL T T / (euclNorm T * euclNorm T)) = 1 := by
    rw [hdot, hnn, div_self (ne_of_gt hS)]
    ring
  have hnd : euclNorm (List.zipWith (fun a b => a - b) T T) /
      Real.sqrt (T.length : ℝ) = 0 := by
    rw [zipWith_sub_self, euclNorm_replicate_zero, zero_div]
  have hmt : match_templates C dec32 (TIn.vec T) (TIn.vec T) (15 / 100) =
      ⟨(0 : ℝ) < 15 / 100, (1 + (1 - 0)) / 2, some 0, some 1, none⟩ := by
    unfold match_templates resolveT
    dsimp only
    rw [if_pos rfl]
    rw [hsim, hnd]
  rw [hmt]
  refine ⟨rfl, rfl, ?_⟩
  show (0 : ℝ) < 15 / 100
  norm_num

/-- Witness for C5 at the one-element template `[1]`. -/
theorem match_templates_self_witness :
    (∃ x ∈ [(1 : ℝ)], x ≠ 0) ∧
    (match_templates idCipher (fun _ => (0 : ℝ))
      (TIn.vec [(1 : ℝ)]) (TIn.vec [(1 : ℝ)]) (15 / 100)).similarity = some 1 ∧
    (match_templates idCipher (fun _ => (0 : ℝ))
      (TIn.vec [(1 : ℝ)]) (TIn.vec [(1 : ℝ)]) (15 / 100)).distance = some 0 ∧
    (match_templates idCipher (fun _ => (0 : ℝ))
      (TIn.vec [(1 : ℝ)]) (TIn.vec [(1 : ℝ)]) (15 / 100)).isMatch := by
  have hT : ∃ x ∈ [(1 : ℝ)], x ≠ 0 := ⟨1, by simp, one_ne_zero⟩
  obtain ⟨h1, h2, h3⟩ :=
    match_templates_self idCipher (fun _ => (0 : ℝ)) [(1 : ℝ)] hT
  exact ⟨hT, h1, h2, h3⟩

/-- Counterexample for C6 as stated: the code returns the capitalized
reason `'Insufficient frames'` (line 359), not `"insufficient frames"`. -/
theorem check_liveness_guards_cex :
    (check_liveness envA ["a", "b"]).reason = some "Insufficient frames" ∧
    (check_liveness envA ["a", "b"]).reason ≠ some "insufficient frames" := by
  have h : check_liveness envA ["a", "b"] =
      ⟨False, some "Insufficient frames", none, none, none⟩ := by
    unfold check_liveness
    rw [if_pos (by decide)]
  rw [h]
  exact ⟨rfl, by simp⟩

/-- C6 (amended): `check_liveness` with fewer than 3 input frames always
returns `is_live = false` with reason `'Insufficient frames'`; with 3 or
more inputs of which fewer than 3 survive decoding and region location, it
always returns `is_live = false` with reason `'Failed to process frames'`
(the code capitalizes both reason strings; the claim's lowercase quoting is
the only discrepancy). -/
theorem check_liveness_guards (E : CVEnv) (frames : List String) :
    (frames.length < 3 → check_liveness E frames =
      ⟨False, some "Insufficient frames", none, none, none⟩) ∧
    (3 ≤ frames.length → (processed E frames).length < 3 →
      check_liveness E frames =
        ⟨False, some "Failed to process frames", none, none, none⟩) := by
  constructor
  · intro h
    unfold check_liveness
    rw [if_pos h]
  · intro h3 hsurv
    unfold check_liveness
    rw [if_neg (by omega)]
    dsimp only
    rw [if_pos (by rw [List.length_map]; exact hsurv)]

/-- Witness for C6 (amended) at a two-frame batch. -/
theorem check_liveness_guards_witness :
    (["a", "b"] : List String).length < 3 ∧
    check_liveness envA ["a", "b"] =
      ⟨False, some "Insufficient frames", none, none, none⟩ :=
  ⟨by decide, (check_liveness_guards envA ["a", "b"]).1 (by decide)⟩

theorem filterMap_replicate_none {α β : Type} (g : α → Option β) (a : α) (n : ℕ)
    (h : g a = none) : List.filterMap g (List.replicate n a) = [] := by
  induction n with
  | zero => rfl
  | succ m ih =>
      rw [List.replicate_succ, List.filterMap_cons, h, ih]

theorem filterMap_replicate_some {α β : Type} (g : α → Option β) (a : α) (b : β) (n : ℕ)
    (h : g a = some b) : List.filterMap g (List.replicate n a) = List.replicate n b := by
  induction n with
  | zero => rfl
  | succ m ih =>
      rw [List.replicate_succ, List.filterMap_cons, h, ih, List.replicate_succ]

theorem rvar_replicate (n : ℕ) (c : ℝ) : rvar (List.replicate n c) = 0 := by
  cases n with
  | zero => simp [rvar, rmean]
  | succ m =>
      have hmean : rmean (List.replicate (m + 1) c) = c := by
        unfold rmean
        rw [List.sum_replicate, List.length_replicate, nsmul_eq_mul]
        exact mul_div_cancel_left₀ c (by exact_mod_cast Nat.succ_ne_zero m)
      unfold rvar
      rw [hmean, List.map_replicate, sub_self, show ((0 : ℝ) ^ 2) = 0 by norm_num,
        List.sum_replicate, smul_zero, zero_div]

/-- C7: with at least 3 surviving frames the verdict is `is_live = true`
exactly when the quality-score variance exceeds 0.001 and the brightness
variance exceeds 1.0; and a batch of identical frames is never judged live
(zero variance, or a guard failure). -/
theorem check_liveness_verdict (E : CVEnv) :
    (∀ frames, 3 ≤ (processed E frames).length →
      ((check_liveness E frames).is_live ↔
        rvar ((processed E frames).map (calculateQuality E)) > 1 / 1000 ∧
        rvar ((processed E frames).map gridMean) > 1)) ∧
    (∀ f n, ¬ (check_liveness E (List.replicate n f)).is_live) := by
  constructor
  · intro frames hsurv
    have hfl : (processed E frames).length ≤ frames.length :=
      List.length_filterMap_le _ _
    unfold check_liveness
    rw [if_neg (by omega)]
    dsimp only
    rw [if_neg (by rw [List.length_map]; omega)]
  · intro f n
    by_cases hn : (List.replicate n f).length < 3
    · unfold check_liveness
      rw [if_pos hn]
      exact fun h => h
    · cases hpf : (E.preprocess f).bind (detect_iris_region E) with
      | none =>
          have hproc : processed E (List.replicate n f) = [] :=
            filterMap_replicate_none _ _ _ hpf
          unfold check_liveness
          rw [if_neg hn]
          dsimp only
          rw [if_pos (by rw [List.length_map, hproc]; decide)]
          exact fun h => h
      | some gr =>
          have hproc : processed E (List.replicate n f) = List.replicate n gr :=
            filterMap_replicate_some _ _ _ _ hpf
          unfold check_liveness
          rw [if_neg hn]
          dsimp only
          by_cases hq : (List.map (calculateQuality E) (processed E (List.replicate n f))).length < 3
          · rw [if_pos hq]
            exact fun h => h
          · rw [if_neg hq]
            intro hlive
            have h1 := hlive.1
            rw [hproc, List.map_replicate, rvar_replicate] at h1
            norm_num at h1

/-- Witness for C7: with the stub library all three frames survive, so the
verdict clause applies non-vacuously. -/
theorem check_liveness_verdict_witness :
    3 ≤ (processed envA ["a", "b", "c"]).length ∧
    ((check_liveness envA ["a", "b", "c"]).is_live ↔
      rvar ((processed envA ["a", "b", "c"]).map (calculateQuality envA)) > 1 / 1000 ∧
      rvar ((processed envA ["a", "b", "c"]).map gridMean) > 1) := by
  have hdet4 := (detect_iris_region_spec envA (List.replicate 4 (List.replicate 4 0)) 4
    (by decide) (stubResize_contract envA rfl)).1 1 1 1 rfl (by decide) (by decide)
    (by decide) (by decide) (by decide) (by decide) (by decide) (by decide)
  have hdet : detect_iris_region envA (List.replicate 4 (List.replicate 4 0)) =
      some g128 := by
    rw [hdet4]
    rfl
  have hbind : ∀ f : String, (envA.preprocess f).bind (detect_iris_region envA) =
      some g128 := by
    intro f
    rw [show envA.preprocess f = some (List.replicate 4 (List.replicate 4 0)) from rfl]
    exact hdet
  have hproc : processed envA ["a", "b", "c"] = [g128, g128, g128] := by
    unfold processed
    rw [List.filterMap_cons, hbind, List.filterMap_cons, hbind, List.filterMap_cons, hbind]
    rfl
  have hsurv : 3 ≤ (processed envA ["a", "b", "c"]).length := by
    rw [hproc]
    decide
  exact ⟨hsurv, (check_liveness_verdict envA).1 ["a", "b", "c"] hsurv⟩

end IrisVault
